import Mathlib

/-!
Verification of the UI_Copilot core against its design description.

The development shallowly embeds the three components of the repository:

* the policy validator of `src/backend/validator/validate.js` (a babel-style
  AST walk collecting violation reasons),
* the snapshot history of `src/frontend/src/App.tsx` (`commitToHistory`,
  `handleUndo`, `handleRedo`),
* the normalization pipeline (`normalizeGeneratedCode` of
  `src/frontend/src/App.tsx`, the fence-extracting variant of
  `src/unnamed/part_000`, and the theme pass `adaptCodeForTheme` of
  `src/unnamed/part_000`).

Strings are modelled as `List Char`; the `String` wrappers mirror the
JavaScript functions.  All definitions are executable.
-/

namespace UICopilot

/-! ## Snapshot history (src/frontend/src/App.tsx, lines 90-113 and 194-210)

The React component keeps `history : string[]` and `historyIndex : number`
(initially `[]` and `-1`).  `commitToHistory` pushes a snapshot,
`handleUndo` / `handleRedo` move the cursor and return the snapshot written
into the editor (modelled as the `Option String` component below; `none`
corresponds to the no-op branches of the handlers). -/

structure HState where
  history : List String
  historyIndex : Int
  deriving Repr, DecidableEq

/-- Initial state: `useState<string[]>([])`, `useState<number>(-1)`. -/
def initialHState : HState := ⟨[], -1⟩

/-- Model of `commitToHistory` (App.tsx lines 102-113): if the cursor is a
valid index, keep `prev.slice(0, historyIndex + 1)`, else keep `prev`
unchanged; append the snapshot; the cursor becomes the last index. -/
def commitToHistory (s : HState) (code : String) : HState :=
  let base :=
    if 0 ≤ s.historyIndex ∧ s.historyIndex < (s.history.length : Int) then
      s.history.take (s.historyIndex + 1).toNat
    else
      s.history
  let next := base ++ [code]
  { history := next, historyIndex := (next.length : Int) - 1 }

/-- Model of `handleUndo` (App.tsx lines 194-201): no-op returning `none`
when `idx ≤ 0`; otherwise decrement the cursor and return the snapshot now
at the cursor (the value passed to `setEditableCode`). -/
def handleUndo (s : HState) : Option String × HState :=
  if s.historyIndex ≤ 0 then (none, s)
  else
    (s.history.get? (s.historyIndex - 1).toNat,
     { s with historyIndex := s.historyIndex - 1 })

/-- Model of `handleRedo` (App.tsx lines 203-210): no-op returning `none`
when `idx < 0` or `idx ≥ history.length - 1`; otherwise increment the
cursor and return the snapshot now at the cursor. -/
def handleRedo (s : HState) : Option String × HState :=
  if s.historyIndex < 0 ∨ (s.history.length : Int) - 1 ≤ s.historyIndex then
    (none, s)
  else
    (s.history.get? (s.historyIndex + 1).toNat,
     { s with historyIndex := s.historyIndex + 1 })

/-- History invariant from the design: `-1 ≤ cursor < length`, and the
cursor is a valid index whenever the log is non-empty. -/
def HInv (s : HState) : Prop :=
  -1 ≤ s.historyIndex ∧ s.historyIndex < (s.history.length : Int) ∧
    (0 < s.history.length → 0 ≤ s.historyIndex)

instance (s : HState) : Decidable (HInv s) := by
  unfold HInv; infer_instance

/-- Operations a session may perform on the history.  `push` is the data
flow from generation (`handleGenerate`/`handleScreenshotGenerate`, both of
which call `commitToHistory`), `commit` the manual-save path
(`handleCommitSnapshot`, the same function). -/
inductive HOp where
  | push (code : String)
  | commit (code : String)
  | undo
  | redo
  deriving Repr, DecidableEq

/-- One step of the history state machine. -/
def applyHOp (s : HState) : HOp → HState
  | .push code => commitToHistory s code
  | .commit code => commitToHistory s code
  | .undo => (handleUndo s).2
  | .redo => (handleRedo s).2

/-- Run a sequence of operations from the empty history. -/
def runHOps (ops : List HOp) : HState :=
  ops.foldl applyHOp initialHState

theorem hinv_commit (s : HState) (code : String) (h : HInv s) :
    HInv (commitToHistory s code) := by
  obtain ⟨h1, h2, h3⟩ := h
  unfold commitToHistory HInv
  by_cases hc : 0 ≤ s.historyIndex ∧ s.historyIndex < (s.history.length : Int)
  · rw [if_pos hc]
    dsimp only
    simp only [List.length_append, List.length_take, List.length_singleton]
    refine ⟨by omega, by omega, fun _ => by omega⟩
  · rw [if_neg hc]
    dsimp only
    simp only [List.length_append, List.length_singleton]
    refine ⟨by omega, by omega, fun _ => by omega⟩

theorem hinv_undo (s : HState) (h : HInv s) : HInv (handleUndo s).2 := by
  obtain ⟨h1, h2, h3⟩ := h
  unfold handleUndo HInv
  by_cases hc : s.historyIndex ≤ 0
  · rw [if_pos hc]
    exact ⟨h1, h2, h3⟩
  · rw [if_neg hc]
    dsimp only
    refine ⟨by omega, by omega, fun _ => by omega⟩

theorem hinv_redo (s : HState) (h : HInv s) : HInv (handleRedo s).2 := by
  obtain ⟨h1, h2, h3⟩ := h
  unfold handleRedo HInv
  by_cases hc : s.historyIndex < 0 ∨ (s.history.length : Int) - 1 ≤ s.historyIndex
  · rw [if_pos hc]
    exact ⟨h1, h2, h3⟩
  · rw [if_neg hc]
    dsimp only
    refine ⟨by omega, by omega, fun _ => by omega⟩

theorem hinv_apply (s : HState) (op : HOp) (h : HInv s) : HInv (applyHOp s op) := by
  cases op with
  | push code => exact hinv_commit s code h
  | commit code => exact hinv_commit s code h
  | undo => exact hinv_undo s h
  | redo => exact hinv_redo s h

theorem hinv_foldl (ops : List HOp) (s : HState) (h : HInv s) :
    HInv (ops.foldl applyHOp s) := by
  induction ops generalizing s with
  | nil => exact h
  | cons op rest ih => exact ih (applyHOp s op) (hinv_apply s op h)

/-- C8: for every sequence of push/commit/undo/redo operations starting from
the empty history (empty log, cursor = -1), the resulting state satisfies
`-1 ≤ cursor < length`, and the cursor is a valid index (`0 ≤ cursor`)
whenever the log is non-empty. -/
theorem history_invariant_all_runs (ops : List HOp) :
    -1 ≤ (runHOps ops).historyIndex ∧
      (runHOps ops).historyIndex < ((runHOps ops).history.length : Int) ∧
      (0 < (runHOps ops).history.length → 0 ≤ (runHOps ops).historyIndex) :=
  hinv_foldl ops initialHState (by unfold HInv initialHState; norm_num)

/-- C6: a push on a state satisfying the history invariant keeps exactly the
entries up to the cursor (discarding the redo branch) and appends, the
cursor becoming the new last index; in particular from the empty log,
`push A; push B; undo` returns `A`, and after a further `push C`, `redo`
returns `none`. -/
theorem push_discards_redo_branch :
    (∀ (s : HState) (code : String), HInv s →
      (commitToHistory s code).history
          = s.history.take (s.historyIndex + 1).toNat ++ [code] ∧
        (commitToHistory s code).historyIndex
          = ((commitToHistory s code).history.length : Int) - 1) ∧
      (let s2 := commitToHistory (commitToHistory initialHState "A") "B"
       let u := handleUndo s2
       u.1 = some "A" ∧
         (handleRedo (commitToHistory u.2 "C")).1 = none) := by
  constructor
  · intro s code h
    obtain ⟨h1, h2, h3⟩ := h
    unfold commitToHistory
    by_cases hc : 0 ≤ s.historyIndex ∧ s.historyIndex < (s.history.length : Int)
    · simp only [hc, if_pos]
      refine ⟨rfl, by simp⟩
    · have hidx : s.historyIndex = -1 := by
        rcases lt_or_le s.historyIndex 0 with hlt | hge
        · omega
        · exact absurd ⟨hge, h2⟩ hc
      have hlen : s.history = [] := by
        cases hh : s.history with
        | nil => rfl
        | cons a l =>
          exfalso
          have : 0 < s.history.length := by rw [hh]; simp
          omega
      simp only [hc, if_neg, not_false_iff, hlen, hidx]
      norm_num
  · refine ⟨by decide, by decide⟩

/-- Witness for `push_discards_redo_branch`: the general clause applied to a
concrete state whose cursor is not at the tail. -/
theorem push_discards_redo_branch_witness :
    (commitToHistory ⟨["A", "B"], 0⟩ "C").history = ["A", "C"] ∧
      (commitToHistory ⟨["A", "B"], 0⟩ "C").historyIndex = 1 := by
  have h := push_discards_redo_branch.1 ⟨["A", "B"], 0⟩ "C" (by decide)
  refine ⟨?_, ?_⟩
  · rw [h.1]; decide
  · rw [h.2, h.1]; decide

/-- C7: on a state satisfying the history invariant, `undo` on an empty log
returns `none`; and whenever `undo` succeeds (cursor > 0 beforehand), an
immediately following `redo` returns exactly the snapshot that was current
before the undo and restores the cursor to its pre-undo position. -/
theorem undo_redo_roundtrip (s : HState) (h : HInv s) :
    (s.history = [] → (handleUndo s).1 = none) ∧
      (0 < s.historyIndex →
        (handleRedo (handleUndo s).2).1 = s.history.get? s.historyIndex.toNat ∧
          (handleRedo (handleUndo s).2).2.historyIndex = s.historyIndex ∧
          (s.history.get? s.historyIndex.toNat).isSome) := by
  obtain ⟨h1, h2, h3⟩ := h
  constructor
  · intro hemp
    have : s.historyIndex ≤ 0 := by
      have : s.history.length = 0 := by rw [hemp]; rfl
      omega
    unfold handleUndo
    simp [this]
  · intro hpos
    have hno : ¬ s.historyIndex ≤ 0 := by omega
    unfold handleUndo
    simp only [hno, if_neg, not_false_iff]
    unfold handleRedo
    have hcond : ¬ (s.historyIndex - 1 < 0 ∨
        (s.history.length : Int) - 1 ≤ s.historyIndex - 1) := by
      push_neg
      constructor <;> omega
    simp only [hcond, if_neg, not_false_iff]
    have harg : (s.historyIndex - 1 + 1).toNat = s.historyIndex.toNat := by omega
    refine ⟨by rw [harg], by omega, ?_⟩
    have hlt : s.historyIndex.toNat < s.history.length := by omega
    rw [List.get?_eq_get hlt]
    rfl

/-- Witness for `undo_redo_roundtrip` at the two-snapshot state reached by
`push A; push B`. -/
theorem undo_redo_roundtrip_witness :
    ((⟨["A", "B"], 1⟩ : HState).history = [] → (handleUndo ⟨["A", "B"], 1⟩).1 = none) ∧
      (0 < (⟨["A", "B"], 1⟩ : HState).historyIndex →
        (handleRedo (handleUndo ⟨["A", "B"], 1⟩).2).1
            = (["A", "B"] : List String).get? (1 : Int).toNat ∧
          (handleRedo (handleUndo ⟨["A", "B"], 1⟩).2).2.historyIndex = 1 ∧
          ((["A", "B"] : List String).get? (1 : Int).toNat).isSome) :=
  undo_redo_roundtrip ⟨["A", "B"], 1⟩ (by decide)

/-! ## Policy validator (src/backend/validator/validate.js)

`validate` parses its input with `@babel/parser` (sourceType "module",
plugins ["jsx"]) and traverses the AST, pushing a reason string for every
forbidden identifier, forbidden member property, and non-allowlisted import
encountered in pre-order.  The AST is embedded as a rose tree whose node
kinds carry the fields the validator inspects; the traversal visits every
node (babel's `Identifier` visitor fires on every `Identifier` node,
including member-expression properties).  A parse failure is an exception
thrown by `parser.parse`, which `validate` does not catch; it is embedded
as a propagated `Except.error`. -/

inductive NodeKind where
  | identifier (name : String)
  | stringLit (value : String)
  | memberExpression (computed : Bool)
  | importDeclaration (source : String)
  | callExpression
  | program
  | expressionStatement
  | jsxElement (tag : String)
  | functionDeclaration (name : String)
  | returnStatement
  deriving Repr, DecidableEq

inductive Node where
  | node (kind : NodeKind) (children : List Node)

/-- The `forbiddenIdentifiers` set of validate.js lines 4-9. -/
def forbiddenIdentifiers : List String :=
  ["eval", "Function", "setTimeout", "setInterval"]

/-- The `forbiddenMembers` array of validate.js lines 11-17. -/
def forbiddenMembers : List String :=
  ["dangerouslySetInnerHTML", "localStorage", "sessionStorage", "window", "document"]

/-- The import allowlist of validate.js line 44 (`["react"]`). -/
def allowedImportSources : List String := ["react"]

/-- Babel's `node.property.name`: defined when the property is an
`Identifier` node, `undefined` otherwise (so that
`forbiddenMembers.includes(undefined)` is false). -/
def propertyName : Node → Option String
  | .node (.identifier nm) _ => some nm
  | _ => none

/-- The reasons pushed by the three visitors at one node (validate.js
lines 28-47).  Note the `MemberExpression` visitor reads
`path.node.property.name` without consulting `computed`. -/
def nodeReasons : NodeKind → List Node → List String
  | .identifier nm, _ =>
      if nm ∈ forbiddenIdentifiers then ["Forbidden identifier: " ++ nm] else []
  | .memberExpression _, children =>
      match children with
      | [_, prop] =>
          match propertyName prop with
          | some nm => if nm ∈ forbiddenMembers then ["Forbidden member: " ++ nm] else []
          | none => []
      | _ => []
  | .importDeclaration src, _ =>
      if src ∈ allowedImportSources then [] else ["Forbidden import: " ++ src]
  | _, _ => []

mutual

/-- Pre-order collection of reasons over the AST, matching the traversal of
`@babel/traverse` (a node's own visitors fire before its children's). -/
def collectReasons : Node → List String
  | .node k children => nodeReasons k children ++ collectReasonsList children

def collectReasonsList : List Node → List String
  | [] => []
  | n :: rest => collectReasons n ++ collectReasonsList rest

end

/-- Verdict `{ safe, reasons }` returned by `validate`.  In the source,
`safe` starts `true` and is set to `false` at every `reasons.push`, so
`safe` is true exactly when `reasons` is empty. -/
structure Verdict where
  safe : Bool
  reasons : List String
  deriving Repr, DecidableEq

def validateAST (ast : Node) : Verdict :=
  let reasons := collectReasons ast
  { safe := reasons.isEmpty, reasons := reasons }

/-- Exception thrown by `parser.parse` on syntactically invalid input. -/
structure ParseError where
  message : String
  deriving Repr, DecidableEq

/-- Model of `validate` (validate.js lines 19-50): parse, then traverse.
The parse outcome of `@babel/parser` (an external dependency) is the
argument; a thrown parse error propagates out of `validate` uncaught. -/
def validate (parsed : Except ParseError Node) : Except ParseError Verdict :=
  match parsed with
  | .error e => .error e
  | .ok ast => .ok (validateAST ast)

mutual

/-- Whether the AST contains an `Identifier` node with the given name. -/
def containsIdent (nm : String) : Node → Bool
  | .node k children =>
      (match k with | .identifier n => n == nm | _ => false) || containsIdentList nm children

def containsIdentList (nm : String) : List Node → Bool
  | [] => false
  | n :: rest => containsIdent nm n || containsIdentList nm rest

end

/-- Induction over the rose-tree AST with a hypothesis on all children. -/
theorem node_ind {P : Node → Prop}
    (h : ∀ k ch, (∀ c ∈ ch, P c) → P (.node k ch)) : ∀ n, P n
  | .node k ch => h k ch (fun c hc => node_ind h c)
termination_by n => sizeOf n
decreasing_by
  have := List.sizeOf_lt_of_mem hc
  simp only [Node.node.sizeOf_spec]
  omega

theorem containsIdentList_exists (nm : String) (l : List Node)
    (h : containsIdentList nm l = true) : ∃ c ∈ l, containsIdent nm c = true := by
  induction l with
  | nil => simp [containsIdentList] at h
  | cons n rest ih =>
    rw [containsIdentList, Bool.or_eq_true] at h
    rcases h with h | h
    · exact ⟨n, List.mem_cons_self n rest, h⟩
    · obtain ⟨c, hc, hcc⟩ := ih h
      exact ⟨c, List.mem_cons_of_mem n hc, hcc⟩

theorem mem_collectReasonsList {x : String} {l : List Node} {c : Node}
    (hcl : c ∈ l) (hx : x ∈ collectReasons c) : x ∈ collectReasonsList l := by
  induction l with
  | nil => exact absurd hcl (List.not_mem_nil c)
  | cons n rest ih =>
    rw [collectReasonsList, List.mem_append]
    rcases List.mem_cons.mp hcl with h | h
    · exact Or.inl (h ▸ hx)
    · exact Or.inr (ih h)

theorem containsIdent_node (nm : String) (k : NodeKind) (ch : List Node) :
    containsIdent nm (.node k ch)
      = ((match k with | .identifier n => n == nm | _ => false)
          || containsIdentList nm ch) := rfl

theorem contains_mem_collectReasons (nm : String) (hnm : nm ∈ forbiddenIdentifiers) :
    ∀ n : Node, containsIdent nm n = true →
      ("Forbidden identifier: " ++ nm) ∈ collectReasons n := by
  intro n
  induction n using node_ind with
  | h k ch ih =>
    intro hcont
    rw [containsIdent_node, Bool.or_eq_true] at hcont
    rw [collectReasons, List.mem_append]
    rcases hcont with hk | hlist
    · left
      cases k <;> simp_all [nodeReasons]
    · right
      obtain ⟨c, hc, hcc⟩ := containsIdentList_exists nm ch hlist
      exact mem_collectReasonsList hc (ih c hc hcc)

/-- C1: for every AST (a module parsed with JSX) containing at least one
identifier node whose name is in the forbidden-identifier set
{eval, Function, setTimeout, setInterval}, `validate` returns a verdict
with `safe = false` whose reasons contain the `Forbidden identifier:`
entry naming that identifier. -/
theorem validate_flags_forbidden_identifier (ast : Node) (nm : String)
    (hnm : nm ∈ forbiddenIdentifiers) (hocc : containsIdent nm ast = true) :
    validate (.ok ast) = .ok (validateAST ast) ∧
      (validateAST ast).safe = false ∧
      ("Forbidden identifier: " ++ nm) ∈ (validateAST ast).reasons := by
  have hmem := contains_mem_collectReasons nm hnm ast hocc
  refine ⟨rfl, ?_, hmem⟩
  unfold validateAST
  cases hr : collectReasons ast with
  | nil => rw [hr] at hmem; exact absurd hmem (List.not_mem_nil _)
  | cons a l => simp [hr]

/-- Concrete AST for `eval('1')` wrapped in a module, used as witness
input. -/
def astEvalCall : Node :=
  .node .program
    [.node .expressionStatement
      [.node .callExpression
        [.node (.identifier "eval") [], .node (.stringLit "1") []]]]

/-- Witness for `validate_flags_forbidden_identifier` at the concrete
program `eval('1')`. -/
theorem validate_flags_forbidden_identifier_witness :
    (validateAST astEvalCall).safe = false ∧
      ("Forbidden identifier: " ++ "eval") ∈ (validateAST astEvalCall).reasons :=
  (validate_flags_forbidden_identifier astEvalCall "eval" (by decide) (by decide)).2

/-- C2: for every input that fails to parse, `validate` surfaces the parse
error as an outcome distinct from any `{safe, reasons}` verdict: the result
is the propagated error, and it is not `.ok v` for any verdict `v` (in
particular neither `safe = true` nor `safe = false` is returned). -/
theorem validate_parse_error_distinct (e : ParseError) :
    validate (.error e) = .error e ∧
      ∀ v : Verdict, validate (.error e) ≠ .ok v := by
  refine ⟨rfl, ?_⟩
  intro v h
  simp [validate] at h

/-- Witness for `validate_parse_error_distinct` at a concrete parse
error. -/
theorem validate_parse_error_distinct_witness :
    validate (.error ⟨"Unexpected token"⟩) = .error ⟨"Unexpected token"⟩ ∧
      validate (Except.error (⟨"Unexpected token"⟩ : ParseError))
        ≠ .ok ⟨true, []⟩ :=
  ⟨(validate_parse_error_distinct ⟨"Unexpected token"⟩).1,
   (validate_parse_error_distinct ⟨"Unexpected token"⟩).2 ⟨true, []⟩⟩

/-- Reason strings of different violation kinds never coincide (they differ
at character index 10). -/
theorem fm_ne_fi (a b : String) :
    "Forbidden member: " ++ a ≠ "Forbidden identifier: " ++ b := by
  intro h
  have h10 : ("Forbidden member: " ++ a).data.get? 10 = some 'm' := rfl
  rw [h] at h10
  have h10' : ("Forbidden identifier: " ++ b).data.get? 10 = some 'i' := rfl
  rw [h10'] at h10
  simp at h10

/-- Member-expression node `obj.prop` / `obj[prop]` as babel produces it:
children are the object and the property, in visiting order. -/
def memberExprNode (obj prop : Node) (computed : Bool) : Node :=
  .node (.memberExpression computed) [obj, prop]

def identNode (nm : String) : Node := .node (.identifier nm) []

def strLitNode (v : String) : Node := .node (.stringLit v) []

/-- Counterexample to C10: the claim says a member access is flagged only
when its property is a NON-computed identifier, but the validator never
consults `computed`: the computed access `obj[localStorage]` (identifier
key) is flagged as a ForbiddenMember. -/
theorem member_computed_identifier_flagged_counterexample :
    (validateAST (memberExprNode (identNode "obj") (identNode "localStorage") true)).reasons
        = ["Forbidden member: " ++ "localStorage"] ∧
      (validateAST (memberExprNode (identNode "obj") (identNode "localStorage") true)).safe
        = false := by
  constructor <;> decide

/-- C10 (as amended): `validate` flags a member access iff its property is
an identifier node — computed or not — whose name is in the
forbidden-member set, regardless of the object: `obj["localStorage"]` with
a string-literal key is never flagged, `window.location` and
`document.write` are not flagged at all, and `x.window` is flagged. -/
theorem member_flagging_amended :
    (∀ (objName propNm : String) (computed : Bool),
      ("Forbidden member: " ++ propNm)
          ∈ (validateAST (memberExprNode (identNode objName) (identNode propNm) computed)).reasons
        ↔ propNm ∈ forbiddenMembers) ∧
      (validateAST (memberExprNode (identNode "obj") (strLitNode "localStorage") true)).safe
          = true ∧
      (validateAST (memberExprNode (identNode "window") (identNode "location") false)).safe
          = true ∧
      (validateAST (memberExprNode (identNode "document") (identNode "write") false)).safe
          = true ∧
      ("Forbidden member: " ++ "window")
          ∈ (validateAST (memberExprNode (identNode "x") (identNode "window") false)).reasons := by
  refine ⟨?_, by decide, by decide, by decide, by decide⟩
  intro objName propNm computed
  unfold validateAST memberExprNode identNode
  simp only [collectReasons, collectReasonsList, nodeReasons, propertyName,
    List.append_nil, List.mem_append]
  by_cases hp : propNm ∈ forbiddenMembers <;>
    by_cases ho : objName ∈ forbiddenIdentifiers <;>
    by_cases hq : propNm ∈ forbiddenIdentifiers <;>
    simp [hp, ho, hq, fm_ne_fi]

/-! ## String-rewriting utilities

The normalization pipeline is textual (split/filter/join, regex
replacement).  Strings are modelled as `List Char`.  Scanners that may
consume several characters per step take an explicit fuel argument (set to
the string length by their wrappers) so that they are structurally
recursive and kernel-evaluable; fuel is never exhausted because every step
consumes at least one character. -/

/-- JavaScript `\s` on the ASCII range: space, tab, newline, carriage
return, vertical tab, form feed. -/
def jsWhitespace (c : Char) : Bool :=
  c = ' ' || c = '\t' || c = '\n' || c = '\r' || c = Char.ofNat 11 || c = Char.ofNat 12

/-- JavaScript `String.prototype.trim` (ASCII range). -/
def trimChars (s : List Char) : List Char :=
  ((s.dropWhile jsWhitespace).reverse.dropWhile jsWhitespace).reverse

/-- JavaScript `str.split("\n")`. -/
def splitLines : List Char → List (List Char)
  | [] => [[]]
  | c :: cs =>
    if c = '\n' then [] :: splitLines cs
    else
      match splitLines cs with
      | [] => [[c]]
      | l :: ls => (c :: l) :: ls

/-- JavaScript `lines.join("\n")`. -/
def joinLines : List (List Char) → List Char
  | [] => []
  | [l] => l
  | l :: ls => l ++ '\n' :: joinLines ls

/-- The backtick character (code point 96). -/
def btk : Char := Char.ofNat 96

/-- The triple-backtick fence marker. -/
def ticksMarker : List Char := [btk, btk, btk]

def startsWithTicks (cs : List Char) : Bool := ticksMarker.isPrefixOf cs

/-- Split at the leftmost occurrence of the triple-backtick marker,
returning the part before it and the part after it. -/
def splitFirstTicks : List Char → Option (List Char × List Char)
  | [] => none
  | c :: rest =>
    if startsWithTicks (c :: rest) then some ([], rest.drop 2)
    else
      match splitFirstTicks rest with
      | none => none
      | some (a, b) => some (c :: a, b)

def isAsciiLetter (c : Char) : Bool :=
  ('a' ≤ c && c ≤ 'z') || ('A' ≤ c && c ≤ 'Z')

/-- Leftmost match of the fence regex of src/unnamed/part_000 line 30,
`/三backticks(?:[a-zA-Z]+)?\s*([\s\S]*?)三backticks/`: find the first
marker, greedily skip a language tag and whitespace, and capture lazily up
to the next marker.  When no complete fence exists the regex fails and the
whole text is kept. -/
def fenceContent (cs : List Char) : List Char :=
  match splitFirstTicks cs with
  | none => cs
  | some (_, rest) =>
    let afterLang := rest.dropWhile isAsciiLetter
    let afterWs := afterLang.dropWhile jsWhitespace
    match splitFirstTicks afterWs with
    | none => cs
    | some (content, _) => content

/-- Token of a literal-and-whitespace regex: a literal string, `\s+`, or
`\s*`.  Because every literal in the patterns below starts with a
non-whitespace character, greedy (maximal-munch) whitespace matching
coincides with the regex semantics. -/
inductive RTok where
  | lit (cs : List Char)
  | ws1
  | ws0
  deriving Repr

/-- Match a token sequence at the head of the string, returning the
remainder on success. -/
def matchToks : List RTok → List Char → Option (List Char)
  | [], s => some s
  | .lit cs :: ts, s =>
      if cs.isPrefixOf s then matchToks ts (s.drop cs.length) else none
  | .ws1 :: ts, s =>
      match s with
      | [] => none
      | c :: rest =>
        if jsWhitespace c then matchToks ts (rest.dropWhile jsWhitespace) else none
  | .ws0 :: ts, s => matchToks ts (s.dropWhile jsWhitespace)

/-- JavaScript `str.replace(pattern, repl)` (non-global): replace the
leftmost match only. -/
def replaceFirstToks (toks : List RTok) (repl : List Char) : List Char → List Char
  | [] => []
  | c :: cs =>
    match matchToks toks (c :: cs) with
    | some rem => repl ++ rem
    | none => c :: replaceFirstToks toks repl cs

/-- JavaScript `str.replace(pattern, repl)` with the `g` flag: scan left to
right, replacing non-overlapping matches; scanning resumes after the
matched text and replacements are not rescanned. -/
def replaceAllToksAux (toks : List RTok) (repl : List Char) : Nat → List Char → List Char
  | _, [] => []
  | 0, s => s
  | fuel + 1, c :: cs =>
    match matchToks toks (c :: cs) with
    | some rem => repl ++ replaceAllToksAux toks repl fuel rem
    | none => c :: replaceAllToksAux toks repl fuel cs

def replaceAllToks (toks : List RTok) (repl : List Char) (s : List Char) : List Char :=
  replaceAllToksAux toks repl s.length s

/-- Global replacement of a literal pattern (e.g. the theme substitutions
`.replace(/text-black/g, "text-slate-50")`). -/
def replaceAllLitAux (pat repl : List Char) : Nat → List Char → List Char
  | _, [] => []
  | 0, s => s
  | fuel + 1, c :: cs =>
    if pat.isPrefixOf (c :: cs) then
      repl ++ replaceAllLitAux pat repl fuel ((c :: cs).drop pat.length)
    else c :: replaceAllLitAux pat repl fuel cs

def replaceAllLit (pat repl s : List Char) : List Char :=
  replaceAllLitAux pat repl s.length s

/-- Substring test: `occurs pat s` is true iff `pat` occurs contiguously in
`s`. -/
def occurs (pat : List Char) : List Char → Bool
  | [] => pat.isPrefixOf []
  | c :: cs => pat.isPrefixOf (c :: cs) || occurs pat cs

/-! ## Hook qualification (src/frontend/src/App.tsx, lines 62-68)

Each hook pass is `code.replace(/(?<!React\.)\buseX\b/g, "React.useX")`:
a global scan replacing every occurrence of the bare hook name that has
word boundaries on both sides and is not immediately preceded by the six
characters `React.`.  The scanner carries the reversed already-consumed
input so the lookbehind and the left word boundary inspect the original
text, exactly as the regex engine does. -/

/-- JavaScript `\w`: ASCII letters, digits, underscore. -/
def isWordChar (c : Char) : Bool := c.isAlpha || c.isDigit || c = '_'

def reactDot : List Char := "React.".data

/-- The lookbehind text, reversed (`prev` is stored reversed). -/
def rdot : List Char := reactDot.reverse

/-- True when the list is empty or starts with a non-word character: the
word-boundary test against the neighbouring character. -/
def noWordHead : List Char → Bool
  | [] => true
  | c :: _ => !isWordChar c

/-- The regex `(?<!React\.)\buseX\b` matches at the current position:
`useX` is a prefix of the rest, both neighbours are non-word characters
(or the ends of the string), and the six preceding characters are not
`React.`. -/
def bareHookAt (h prev rest : List Char) : Bool :=
  h.isPrefixOf rest && noWordHead prev && noWordHead (rest.drop h.length)
    && !(rdot.isPrefixOf prev)

def qualifyGoAux (h : List Char) : Nat → List Char → List Char → List Char
  | _, _, [] => []
  | 0, _, s => s
  | fuel + 1, prev, c :: cs =>
    if bareHookAt h prev (c :: cs) then
      reactDot ++ h ++ qualifyGoAux h fuel (h.reverse ++ prev) ((c :: cs).drop h.length)
    else c :: qualifyGoAux h fuel (c :: prev) cs

/-- One hook pass: one `code.replace(/(?<!React\.)\buseX\b/g, "React.useX")`. -/
def qualifyOne (h s : List Char) : List Char := qualifyGoAux h s.length [] s

/-- The seven hook names, in the order of the seven `replace` calls. -/
def hookNameStrings : List String :=
  ["useState", "useEffect", "useCallback", "useMemo", "useRef", "useContext", "useReducer"]

def hookNames : List (List Char) := hookNameStrings.map String.data

/-- The seven sequential hook-qualification replaces. -/
def qualifyHooks (s : List Char) : List Char :=
  hookNames.foldl (fun acc h => qualifyOne h acc) s

/-! ## Normalization pipelines -/

/-- Keep a line unless its trimmed content starts with a fence marker or
`import ` (App.tsx lines 51-56). -/
def keepLineApp (line : List Char) : Bool :=
  let trimmed := trimChars line
  !(ticksMarker.isPrefixOf trimmed) && !(("import ".data).isPrefixOf trimmed)

/-- The line-filter stage of `normalizeGeneratedCode` (App.tsx lines
49-57): split on newlines, drop fence/import lines, rejoin. -/
def filterLinesApp (s : List Char) : List Char :=
  joinLines ((splitLines s).filter keepLineApp)

/-- Replacement pattern `/export\s+default\s+function\s+GeneratedComponent\s*\(/`. -/
def exportDefaultFunctionPattern : List RTok :=
  [.lit "export".data, .ws1, .lit "default".data, .ws1, .lit "function".data, .ws1,
   .lit "GeneratedComponent".data, .ws0, .lit "(".data]

/-- Replacement pattern `/export\s+default\s+/` (applied globally). -/
def exportDefaultPattern : List RTok :=
  [.lit "export".data, .ws1, .lit "default".data, .ws1]

/-- Model of `normalizeGeneratedCode` of src/frontend/src/App.tsx lines
47-71: empty-input guard, line filter, export-form canonicalization
(first-match replace then global strip), seven hook-qualification
replaces, final trim. -/
def normalizeCore (raw : List Char) : List Char :=
  if raw = [] then []
  else
    let code1 := filterLinesApp raw
    let code2 := replaceFirstToks exportDefaultFunctionPattern
      ("function GeneratedComponent(".data) code1
    let code3 := replaceAllToks exportDefaultPattern [] code2
    let code4 := qualifyHooks code3
    trimChars code4

def normalizeGeneratedCode (raw : String) : String :=
  ⟨normalizeCore raw.data⟩

/-- Keep a line unless its trimmed content starts with a fence marker,
`import `, or `export \x7b` (src/unnamed/part_000 lines 38-44). -/
def keepLineFenced (line : List Char) : Bool :=
  let trimmed := trimChars line
  !(ticksMarker.isPrefixOf trimmed) && !(("import ".data).isPrefixOf trimmed)
    && !(("export \x7b".data).isPrefixOf trimmed)

/-- Model of the `normalizeGeneratedCode` variant of src/unnamed/part_000
lines 24-55: fence extraction (first fenced block only), line filter,
export-form canonicalization, final trim.  This variant has no hook
qualification. -/
def normalizeFencedCore (raw : List Char) : List Char :=
  if raw = [] then []
  else
    let code1 := fenceContent raw
    let code2 := joinLines ((splitLines code1).filter keepLineFenced)
    let code3 := replaceFirstToks exportDefaultFunctionPattern
      ("function GeneratedComponent(".data) code2
    let code4 := replaceAllToks exportDefaultPattern [] code3
    trimChars code4

def normalizeGeneratedCodeFenced (raw : String) : String :=
  ⟨normalizeFencedCore raw.data⟩

/-- Model of `adaptCodeForTheme` of src/unnamed/part_000 lines 58-72: in
dark mode replace `text-black` with `text-slate-50` and `bg-white` with
`bg-slate-900`; in light mode replace `text-white` with `text-slate-900`
and `bg-slate-900` with `bg-slate-100`. -/
def adaptCodeForTheme (code : List Char) (isDark : Bool) : List Char :=
  if code = [] then code
  else if isDark then
    replaceAllLit ("bg-white".data) ("bg-slate-900".data)
      (replaceAllLit ("text-black".data) ("text-slate-50".data) code)
  else
    replaceAllLit ("bg-slate-900".data) ("bg-slate-100".data)
      (replaceAllLit ("text-white".data) ("text-slate-900".data) code)

/-- Keys of the `reactLiveScope` object passed to the sandbox
(`LiveProvider scope={reactLiveScope}`, App.tsx lines 27-45). -/
def reactLiveScopeKeys : List String :=
  ["React", "useState", "useEffect", "useCallback", "useMemo", "useRef",
   "useContext", "useReducer", "createElement", "Fragment", "Component",
   "createContext", "forwardRef", "memo", "Children", "cloneElement",
   "isValidElement"]

/-! ## Split/join round-trip lemmas -/

theorem splitLines_ne_nil (s : List Char) : splitLines s ≠ [] := by
  cases s with
  | nil => simp [splitLines]
  | cons c cs =>
    rw [splitLines]
    by_cases hc : c = '\n'
    · simp [hc]
    · rw [if_neg hc]
      cases h : splitLines cs <;> simp

theorem nl_not_mem_splitLines (s : List Char) :
    ∀ l ∈ splitLines s, '\n' ∉ l := by
  induction s with
  | nil =>
    intro l hl
    simp [splitLines] at hl
    simp [hl]
  | cons c cs ih =>
    intro l hl
    rw [splitLines] at hl
    by_cases hc : c = '\n'
    · rw [if_pos hc] at hl
      rcases List.mem_cons.mp hl with h | h
      · simp [h]
      · exact ih l h
    · rw [if_neg hc] at hl
      cases hs : splitLines cs with
      | nil => exact absurd hs (splitLines_ne_nil cs)
      | cons l0 ls =>
        rw [hs] at hl
        rcases List.mem_cons.mp hl with h | h
        · subst h
          intro hmem
          rcases List.mem_cons.mp hmem with h' | h'
          · exact hc h'.symm
          · exact ih l0 (hs ▸ List.mem_cons_self l0 ls) h'
        · exact ih l (hs ▸ List.mem_cons_of_mem l0 h)

theorem splitLines_of_no_nl (p : List Char) (hp : '\n' ∉ p) :
    splitLines p = [p] := by
  induction p with
  | nil => rfl
  | cons c cs ih =>
    have hc : c ≠ '\n' := fun h => hp (h ▸ List.mem_cons_self c cs)
    have hcs : '\n' ∉ cs := fun h => hp (List.mem_cons_of_mem c h)
    rw [splitLines, if_neg hc, ih hcs]

theorem splitLines_append_nl (p t : List Char) (hp : '\n' ∉ p) :
    splitLines (p ++ '\n' :: t) = p :: splitLines t := by
  induction p with
  | nil => simp [splitLines]
  | cons c cs ih =>
    have hc : c ≠ '\n' := fun h => hp (h ▸ List.mem_cons_self c cs)
    have hcs : '\n' ∉ cs := fun h => hp (List.mem_cons_of_mem c h)
    rw [List.cons_append, splitLines, if_neg hc, ih hcs]

theorem splitLines_joinLines (ps : List (List Char)) (hne : ps ≠ [])
    (hnl : ∀ p ∈ ps, '\n' ∉ p) : splitLines (joinLines ps) = ps := by
  induction ps with
  | nil => exact absurd rfl hne
  | cons p rest ih =>
    cases rest with
    | nil =>
      rw [joinLines]
      exact splitLines_of_no_nl p (hnl p (List.mem_cons_self p []))
    | cons q rest' =>
      rw [show joinLines (p :: q :: rest') = p ++ '\n' :: joinLines (q :: rest') from rfl,
        splitLines_append_nl p _ (hnl p (List.mem_cons_self p _)),
        ih (List.cons_ne_nil q rest') (fun x hx => hnl x (List.mem_cons_of_mem p hx))]

/-- C4 (as amended): the import/fence line-filter stage of
`normalizeGeneratedCode` removes every line whose trimmed content begins
with `import ` or with a fence marker — no line of its output starts with
either.  (The full normalize is NOT free of them: the later
`export default` stripping can uncover an import line and can leave an
`export default` token, see the counterexample.) -/
theorem filter_stage_no_import_lines (raw l : List Char)
    (hmem : l ∈ splitLines (filterLinesApp raw)) :
    ("import ".data).isPrefixOf (trimChars l) = false ∧
      ticksMarker.isPrefixOf (trimChars l) = false := by
  unfold filterLinesApp at hmem
  cases hk : (splitLines raw).filter keepLineApp with
  | nil =>
    rw [hk] at hmem
    simp [joinLines, splitLines] at hmem
    subst hmem
    exact ⟨rfl, rfl⟩
  | cons a rest =>
    rw [hk] at hmem
    have hnl : ∀ p ∈ a :: rest, '\n' ∉ p := by
      intro p hp
      exact nl_not_mem_splitLines raw p (List.mem_of_mem_filter (hk ▸ hp))
    rw [splitLines_joinLines _ (by simp) hnl] at hmem
    have hkeep : keepLineApp l = true := List.of_mem_filter (hk ▸ hmem)
    unfold keepLineApp at hkeep
    rw [Bool.and_eq_true, Bool.not_eq_true', Bool.not_eq_true'] at hkeep
    exact ⟨hkeep.2, hkeep.1⟩

/-- Witness for `filter_stage_no_import_lines`: the surviving line of a
two-line input whose first line is an import. -/
theorem filter_stage_no_import_lines_witness :
    ("import ".data).isPrefixOf (trimChars "code".data) = false ∧
      ticksMarker.isPrefixOf (trimChars "code".data) = false :=
  filter_stage_no_import_lines ("import x\ncode".data) ("code".data) (by decide)

/-- Counterexample to C4 as stated: `normalizeGeneratedCode` CAN output an
`export default` token (when it is not followed by whitespace, the global
`/export\s+default\s+/` replace does not match it) and CAN output a line
whose trimmed content begins with `import ` (uncovered by that replace
after the line filter already ran). -/
theorem normalize_reintroduction_counterexample :
    occurs ("export default".data) (normalizeGeneratedCode "export default").data = true ∧
      ("import ".data).isPrefixOf
        (trimChars (normalizeGeneratedCode "export default import x").data) = true := by
  exact ⟨by decide, by decide⟩

/-! ## Fence extraction (C3) -/

/-- A fenced block: opening marker, language tag, newline, content, closing
marker. -/
def fenceBlock (lang code : List Char) : List Char :=
  ticksMarker ++ lang ++ '\n' :: code ++ ticksMarker

theorem startsWithTicks_head (c : Char) (rest : List Char)
    (h : startsWithTicks (c :: rest) = true) : c = btk := by
  rw [startsWithTicks, ticksMarker] at h
  rw [List.isPrefixOf_iff_prefix] at h
  exact ((List.cons_prefix_cons.mp h).1).symm

theorem splitFirstTicks_exact (a b : List Char) (ha : btk ∉ a) :
    splitFirstTicks (a ++ ticksMarker ++ b) = some (a, b) := by
  induction a with
  | nil =>
    show splitFirstTicks (btk :: btk :: btk :: b) = some ([], b)
    rw [splitFirstTicks, if_pos]
    · rfl
    · rw [startsWithTicks, ticksMarker, List.isPrefixOf_iff_prefix]
      exact List.cons_prefix_cons.mpr ⟨rfl, List.cons_prefix_cons.mpr ⟨rfl,
        List.cons_prefix_cons.mpr ⟨rfl, List.nil_prefix⟩⟩⟩
  | cons c a' ih =>
    have hc : c ≠ btk := fun h => ha (h ▸ List.mem_cons_self c a')
    have ha' : btk ∉ a' := fun h => ha (List.mem_cons_of_mem c h)
    rw [List.cons_append, List.cons_append, splitFirstTicks, if_neg, ih ha']
    intro h
    exact hc (startsWithTicks_head _ _ h)

theorem fenceContent_block (pre lang code suf : List Char)
    (hpre : btk ∉ pre) (hcode : btk ∉ code)
    (hlang : ∀ c ∈ lang, isAsciiLetter c = true) :
    fenceContent (pre ++ fenceBlock lang code ++ suf)
      = code.dropWhile jsWhitespace := by
  have h1 : pre ++ fenceBlock lang code ++ suf
      = pre ++ ticksMarker ++ (lang ++ '\n' :: (code ++ ticksMarker ++ suf)) := by
    simp [fenceBlock]
  rw [h1]
  unfold fenceContent
  rw [splitFirstTicks_exact pre _ hpre]
  have h2 : (lang ++ '\n' :: (code ++ ticksMarker ++ suf)).dropWhile isAsciiLetter
      = '\n' :: (code ++ ticksMarker ++ suf) := by
    rw [List.dropWhile_append_of_pos hlang,
      List.dropWhile_cons_of_neg (by decide)]
  have h3 : ('\n' :: (code ++ ticksMarker ++ suf)).dropWhile jsWhitespace
      = code.dropWhile jsWhitespace ++ ticksMarker ++ suf := by
    rw [List.dropWhile_cons_of_pos (by simp [jsWhitespace])]
    have : code ++ ticksMarker ++ suf = code ++ (ticksMarker ++ suf) := by simp
    rw [this, List.dropWhile_append]
    by_cases hd : (code.dropWhile jsWhitespace).isEmpty = true
    · rw [if_pos hd]
      rw [List.isEmpty_iff] at hd
      rw [hd, List.nil_append]
      rw [show ticksMarker ++ suf = btk :: btk :: btk :: suf from rfl]
      rw [List.dropWhile_cons_of_neg (by decide)]
    · rw [if_neg hd]
      simp
  simp only [h2, h3]
  have hcode' : btk ∉ code.dropWhile jsWhitespace := fun h =>
    hcode ((List.dropWhile_sublist jsWhitespace).mem h)
  rw [splitFirstTicks_exact _ _ hcode']

theorem fenceInput_ne_nil (pre lang code suf : List Char) :
    pre ++ fenceBlock lang code ++ suf ≠ [] := by
  intro h
  rw [fenceBlock] at h
  simp [ticksMarker] at h

/-- C3 (as amended): for the fence-extracting variant of
`normalizeGeneratedCode` (src/unnamed/part_000 lines 24-55), the output on
an input of the form prefix ++ fence(lang, CODE) ++ suffix is derived
solely from CODE: two inputs that differ only in the prefix, language tag
and suffix (none of the prefixes or CODE containing a backtick, the
language tags being ASCII-letter tags) normalize identically.  The
App.tsx variant has no fence extraction and does not satisfy this, see
the counterexample. -/
theorem fence_extraction_prefix_suffix_independent
    (pre1 pre2 suf1 suf2 lang1 lang2 code : List Char)
    (hp1 : btk ∉ pre1) (hp2 : btk ∉ pre2) (hc : btk ∉ code)
    (hl1 : ∀ c ∈ lang1, isAsciiLetter c = true)
    (hl2 : ∀ c ∈ lang2, isAsciiLetter c = true) :
    normalizeFencedCore (pre1 ++ fenceBlock lang1 code ++ suf1)
      = normalizeFencedCore (pre2 ++ fenceBlock lang2 code ++ suf2) := by
  unfold normalizeFencedCore
  rw [if_neg (fenceInput_ne_nil pre1 lang1 code suf1),
    if_neg (fenceInput_ne_nil pre2 lang2 code suf2),
    fenceContent_block pre1 lang1 code suf1 hp1 hc hl1,
    fenceContent_block pre2 lang2 code suf2 hp2 hc hl2]

/-- Witness for `fence_extraction_prefix_suffix_independent` at concrete
prefixes, tags and suffixes around the same CODE. -/
theorem fence_extraction_witness :
    normalizeFencedCore ("x ".data ++ fenceBlock ("js".data) ("const a = 1".data)
        ++ " tail".data)
      = normalizeFencedCore ([] ++ fenceBlock ("jsx".data) ("const a = 1".data) ++ []) :=
  fence_extraction_prefix_suffix_independent _ _ _ _ _ _ _
    (by decide) (by decide) (by decide) (by decide) (by decide)

/-- Counterexample to C3 as stated against the App.tsx
`normalizeGeneratedCode`: it has no fence extraction (it only drops
fence-marker lines), so content before the first fenced region survives:
two inputs differing only in the prefix normalize differently. -/
theorem normalize_fence_prefix_counterexample :
    normalizeGeneratedCode "hello\n```js\nCODE\n```" = "hello\nCODE" ∧
      normalizeGeneratedCode "```js\nCODE\n```" = "CODE" ∧
      normalizeGeneratedCode "hello\n```js\nCODE\n```"
        ≠ normalizeGeneratedCode "```js\nCODE\n```" := by
  exact ⟨by decide, by decide, by decide⟩

/-! ## Substring lemmas for global literal replacement

Generic facts about `occurs` and `replaceAllLit`, used for the
theme-substitution claims: a global replace leaves no occurrence of its
own pattern and preserves the absence of other patterns, provided pattern
and replacement do not overlap (no nonempty proper prefix of the pattern
is a suffix of the replacement and vice versa, and the pattern is not a
substring of the replacement). -/

theorem isPrefixOf_nil_false (pat : List Char) (h : pat ≠ []) :
    pat.isPrefixOf ([] : List Char) = false := by
  cases pat with
  | nil => exact absurd rfl h
  | cons c cs => rfl

theorem occurs_nil (pat : List Char) (h : pat ≠ []) : occurs pat [] = false := by
  rw [occurs]
  exact isPrefixOf_nil_false pat h

theorem occurs_of_prefix {pat s : List Char} (h : pat <+: s) :
    occurs pat s = true := by
  cases s with
  | nil =>
    have : pat = [] := List.prefix_nil.mp h
    subst this
    rfl
  | cons c cs =>
    rw [occurs, List.isPrefixOf_iff_prefix.mpr h]
    rfl

theorem occurs_cons_of_tail {pat : List Char} (c : Char) {cs : List Char}
    (h : occurs pat cs = true) : occurs pat (c :: cs) = true := by
  rw [occurs, h, Bool.or_true]

theorem occurs_append_right (A : List Char) {pat B : List Char}
    (h : occurs pat B = true) : occurs pat (A ++ B) = true := by
  induction A with
  | nil => exact h
  | cons c a ih => exact occurs_cons_of_tail c ih

theorem occurs_drop_le {pat s : List Char} (n : Nat)
    (h : occurs pat (s.drop n) = true) : occurs pat s = true := by
  have := occurs_append_right (s.take n) h
  rwa [List.take_append_drop] at this

theorem occurs_of_eq_append {pat s p q : List Char} (h : s = p ++ pat ++ q) :
    occurs pat s = true := by
  subst h
  rw [List.append_assoc]
  exact occurs_append_right p ( occurs_of_prefix (List.prefix_append pat q))

theorem occurs_exists {pat s : List Char} (h : occurs pat s = true) :
    ∃ p q, s = p ++ pat ++ q := by
  induction s with
  | nil =>
    rw [occurs] at h
    cases pat with
    | nil => exact ⟨[], [], rfl⟩
    | cons c cs =>
      rw [isPrefixOf_nil_false _ (List.cons_ne_nil c cs)] at h
      exact Bool.noConfusion h
  | cons c cs ih =>
    rw [occurs, Bool.or_eq_true] at h
    rcases h with h | h
    · obtain ⟨t, ht⟩ := List.isPrefixOf_iff_prefix.mp h
      exact ⟨[], t, by simp [ht.symm]⟩
    · obtain ⟨p, q, hpq⟩ := ih h
      exact ⟨c :: p, q, by simp [hpq]⟩

theorem occursSplit {pat A B : List Char} (h : occurs pat (A ++ B) = true) :
    occurs pat A = true ∨ occurs pat B = true ∨
      ∃ u v, pat = u ++ v ∧ u ≠ [] ∧ v ≠ [] ∧ u <:+ A ∧ v <+: B := by
  obtain ⟨p, q, hpq⟩ := occurs_exists h
  rw [List.append_assoc] at hpq
  rcases List.append_eq_append_iff.mp hpq.symm with ⟨a', ha1, ha2⟩ | ⟨c', hc1, hc2⟩
  · rcases List.append_eq_append_iff.mp ha2 with ⟨x, hx1, hx2⟩ | ⟨y, hy1, hy2⟩
    · left
      exact occurs_of_eq_append (p := p) (q := x)
        (by rw [ha1, hx1, ← List.append_assoc])
    · by_cases ha0 : a' = []
      · right; left
        subst ha0
        simp only [List.nil_append] at hy1
        exact occurs_of_eq_append (p := []) (q := q)
          (by rw [hy2, ← hy1]; simp)
      · by_cases hy0 : y = []
        · left
          subst hy0
          rw [List.append_nil] at hy1
          exact occurs_of_eq_append (p := p) (q := [])
            (by rw [ha1, ← hy1]; simp)
        · right; right
          exact ⟨a', y, hy1, ha0, hy0, ⟨p, ha1.symm⟩, ⟨q, hy2.symm⟩⟩
  · right; left
    exact occurs_of_eq_append (p := c') (q := q)
      (by rw [hc2, ← List.append_assoc])

theorem prefix_of_append_of_le {q A B : List Char} (h : q <+: A ++ B)
    (hl : q.length ≤ A.length) : q <+: A := by
  obtain ⟨t, ht⟩ := h
  have hq : q = (A ++ B).take q.length := by
    rw [← ht, List.take_left' rfl]
  rw [List.take_append_eq_append_take, Nat.sub_eq_zero_of_le hl,
    List.take_zero, List.append_nil] at hq
  rw [hq]
  exact List.take_prefix _ _

theorem replaceAllLitAux_prefix_structure (pat repl : List Char) :
    ∀ fuel s q, s.length ≤ fuel →
      q <+: replaceAllLitAux pat repl fuel s →
      q <+: s ∨ ∃ m r, q = s.take m ++ r ∧ pat <+: s.drop m ∧ r ≠ [] ∧
        ∃ t, r <+: repl ++ t := by
  intro fuel
  induction fuel with
  | zero =>
    intro s q hlen hq
    have hs : s = [] := List.eq_nil_of_length_eq_zero (Nat.le_zero.mp hlen)
    subst hs
    left
    have : q = [] := List.prefix_nil.mp hq
    simp [this]
  | succ fuel ih =>
    intro s q hlen hq
    cases s with
    | nil =>
      left
      have : q = [] := List.prefix_nil.mp hq
      simp [this]
    | cons c cs =>
      rw [show replaceAllLitAux pat repl (fuel + 1) (c :: cs)
          = if pat.isPrefixOf (c :: cs) then
              repl ++ replaceAllLitAux pat repl fuel ((c :: cs).drop pat.length)
            else c :: replaceAllLitAux pat repl fuel cs from rfl] at hq
      by_cases hm : pat.isPrefixOf (c :: cs)
      · rw [if_pos hm] at hq
        by_cases hql : q = []
        · left; simp [hql]
        · right
          refine ⟨0, q, by simp, ?_, hql, _, hq⟩
          simpa using List.isPrefixOf_iff_prefix.mp hm
      · rw [if_neg hm] at hq
        cases q with
        | nil => left; exact List.nil_prefix
        | cons q0 q' =>
          obtain ⟨hq0, hq'⟩ := List.cons_prefix_cons.mp hq
          subst hq0
          rcases ih cs q' (by simpa using Nat.lt_succ_iff.mp (Nat.lt_of_lt_of_le (Nat.lt_succ_of_le (Nat.le_refl _)) hlen)) hq' with hL | ⟨m, r, hqr, hpat, hr, t, ht⟩
          · left
            exact List.cons_prefix_cons.mpr ⟨rfl, hL⟩
          · right
            refine ⟨m + 1, r, ?_, ?_, hr, t, ht⟩
            · rw [List.take_succ_cons, List.cons_append, hqr]
            · rwa [List.drop_succ_cons]

/-- A global literal replace leaves no occurrence of its own pattern,
provided the pattern does not occur in the replacement, no nonempty
proper suffix of the pattern is a prefix of the replacement, no nonempty
proper prefix of the pattern is a suffix of the replacement, and the
pattern is at most one longer than the replacement. -/
theorem replaceAll_no_occurs (pat repl : List Char) (hne : pat ≠ [])
    (hlen : pat.length ≤ repl.length + 1)
    (hA : occurs pat repl = false)
    (hL : ∀ k, k < pat.length → 0 < k →
      ((pat.drop k).isPrefixOf repl = false ∨
        pat.drop k = pat.take (pat.length - k)))
    (hR : ∀ k, k < pat.length → 0 < k → (pat.take k).isSuffixOf repl = false) :
    ∀ fuel s, s.length ≤ fuel →
      occurs pat (replaceAllLitAux pat repl fuel s) = false := by
  have hpatlen : 0 < pat.length := List.length_pos.mpr hne
  intro fuel
  induction fuel with
  | zero =>
    intro s hlens
    have hs : s = [] := List.eq_nil_of_length_eq_zero (Nat.le_zero.mp hlens)
    subst hs
    exact occurs_nil pat hne
  | succ fuel ih =>
    intro s hlens
    cases s with
    | nil => exact occurs_nil pat hne
    | cons c cs =>
      rw [show replaceAllLitAux pat repl (fuel + 1) (c :: cs)
          = if pat.isPrefixOf (c :: cs) then
              repl ++ replaceAllLitAux pat repl fuel ((c :: cs).drop pat.length)
            else c :: replaceAllLitAux pat repl fuel cs from rfl]
      by_cases hm : pat.isPrefixOf (c :: cs)
      · rw [if_pos hm]
        by_contra hocc
        rw [Bool.not_eq_false] at hocc
        have hrec : occurs pat (replaceAllLitAux pat repl fuel ((c :: cs).drop pat.length)) = false := by
          apply ih
          rw [List.length_drop]
          have hcc : cs.length + 1 ≤ fuel + 1 := by simpa using hlens
          simp only [List.length_cons]
          omega
        rcases occursSplit hocc with h | h | ⟨u, v, huv, hu, hv, husf, hvpf⟩
        · rw [hA] at h; exact Bool.noConfusion h
        · rw [hrec] at h; exact Bool.noConfusion h
        · have hk : (pat.take u.length) <:+ repl := by
            rw [huv, List.take_left]
            exact husf
          have hkr := hR u.length (by
              rw [huv, List.length_append]
              have := List.length_pos.mpr hv
              omega)
            (List.length_pos.mpr hu)
          rw [List.isSuffixOf_iff_suffix.symm] at hk
          rw [hkr] at hk
          exact Bool.noConfusion hk
      · rw [if_neg hm]
        have hcs : occurs pat (replaceAllLitAux pat repl fuel cs) = false := by
          apply ih
          simpa using Nat.succ_le_succ_iff.mp hlens
        rw [occurs, hcs, Bool.or_false, Bool.eq_false_iff]
        intro hpre
        have hpre' := List.isPrefixOf_iff_prefix.mp hpre
        cases pat with
        | nil => exact hne rfl
        | cons p0 pat0 =>
          obtain ⟨hp0, hpat0⟩ := List.cons_prefix_cons.mp hpre'
          subst hp0
          rcases replaceAllLitAux_prefix_structure (p0 :: pat0) repl fuel cs pat0
              (by simpa using Nat.succ_le_succ_iff.mp hlens) hpat0 with
            hT | ⟨m, r, hqr, hpat, hr, t, ht⟩
          · exact hm (List.isPrefixOf_iff_prefix.mpr (List.cons_prefix_cons.mpr ⟨rfl, hT⟩))
          · have hrl : r.length ≤ repl.length := by
              have h1 : pat0.length = (cs.take m).length + r.length := by
                rw [hqr, List.length_append]
              have h2 : (p0 :: pat0).length = pat0.length + 1 := by simp
              have := List.length_pos.mpr hr
              omega
            have hrpre : r <+: repl := prefix_of_append_of_le ht hrl
            have hdrop : (p0 :: pat0).drop ((cs.take m).length + 1) = r := by
              rw [List.drop_succ_cons, hqr, List.drop_left]
            rcases hL ((cs.take m).length + 1)
              (by
                have h1 : pat0.length = (cs.take m).length + r.length := by
                  rw [hqr, List.length_append]
                have := List.length_pos.mpr hr
                simp only [List.length_cons]
                omega)
              (by omega) with hLf | hBorder
            · rw [hdrop] at hLf
              rw [List.isPrefixOf_iff_prefix.symm] at hrpre
              rw [hLf] at hrpre
              exact Bool.noConfusion hrpre
            · rw [hdrop] at hBorder
              apply hm
              rw [List.isPrefixOf_iff_prefix]
              refine List.cons_prefix_cons.mpr ⟨rfl, ?_⟩
              obtain ⟨X, hX⟩ := hpat
              have hr2 : r <+: (p0 :: pat0) := by
                rw [hBorder]
                exact List.take_prefix _ _
              have hgoal : pat0 <+: cs.take m ++ cs.drop m := by
                rw [hqr, List.prefix_append_right_inj, ← hX]
                exact hr2.trans (List.prefix_append _ _)
              rwa [List.take_append_drop] at hgoal

/-- A global literal replace of `pat` preserves the absence of a different
pattern `patA`, under the same non-overlap conditions between `patA` and
the replacement text. -/
theorem replaceAll_preserves_no_occurs (patA pat repl : List Char)
    (hneA : patA ≠ []) (hne : pat ≠ [])
    (hlenA : patA.length ≤ repl.length + 1)
    (hA : occurs patA repl = false)
    (hL : ∀ k, k < patA.length → 0 < k → (patA.drop k).isPrefixOf repl = false)
    (hR : ∀ k, k < patA.length → 0 < k → (patA.take k).isSuffixOf repl = false) :
    ∀ fuel s, s.length ≤ fuel → occurs patA s = false →
      occurs patA (replaceAllLitAux pat repl fuel s) = false := by
  intro fuel
  induction fuel with
  | zero =>
    intro s hlens hno
    have hs : s = [] := List.eq_nil_of_length_eq_zero (Nat.le_zero.mp hlens)
    subst hs
    exact occurs_nil patA hneA
  | succ fuel ih =>
    intro s hlens hno
    cases s with
    | nil => exact occurs_nil patA hneA
    | cons c cs =>
      rw [show replaceAllLitAux pat repl (fuel + 1) (c :: cs)
          = if pat.isPrefixOf (c :: cs) then
              repl ++ replaceAllLitAux pat repl fuel ((c :: cs).drop pat.length)
            else c :: replaceAllLitAux pat repl fuel cs from rfl]
      by_cases hm : pat.isPrefixOf (c :: cs)
      · rw [if_pos hm]
        by_contra hocc
        rw [Bool.not_eq_false] at hocc
        have hrec : occurs patA (replaceAllLitAux pat repl fuel ((c :: cs).drop pat.length)) = false := by
          apply ih
          · rw [List.length_drop]
            have hcc : cs.length + 1 ≤ fuel + 1 := by simpa using hlens
            have := List.length_pos.mpr hne
            simp only [List.length_cons]
            omega
          · rw [Bool.eq_false_iff]
            intro hd
            rw [occurs_drop_le pat.length hd] at hno
            exact Bool.noConfusion hno
        rcases occursSplit hocc with h | h | ⟨u, v, huv, hu, hv, husf, hvpf⟩
        · rw [hA] at h; exact Bool.noConfusion h
        · rw [hrec] at h; exact Bool.noConfusion h
        · have hk : (patA.take u.length) <:+ repl := by
            rw [huv, List.take_left]
            exact husf
          have hkr := hR u.length (by
              rw [huv, List.length_append]
              have := List.length_pos.mpr hv
              omega)
            (List.length_pos.mpr hu)
          rw [List.isSuffixOf_iff_suffix.symm] at hk
          rw [hkr] at hk
          exact Bool.noConfusion hk
      · rw [if_neg hm]
        have htail : occurs patA cs = false := by
          rw [occurs, Bool.or_eq_false_iff] at hno
          exact hno.2
        have hcs : occurs patA (replaceAllLitAux pat repl fuel cs) = false :=
          ih cs (by simpa using Nat.succ_le_succ_iff.mp hlens) htail
        rw [occurs, hcs, Bool.or_false, Bool.eq_false_iff]
        intro hpre
        have hpre' := List.isPrefixOf_iff_prefix.mp hpre
        cases hpA : patA with
        | nil => exact hneA hpA
        | cons p0 pat0 =>
          subst hpA
          obtain ⟨hp0, hpat0⟩ := List.cons_prefix_cons.mp hpre'
          subst hp0
          rcases replaceAllLitAux_prefix_structure pat repl fuel cs pat0
              (by simpa using Nat.succ_le_succ_iff.mp hlens) hpat0 with
            hT | ⟨m, r, hqr, hpatm, hr, t, ht⟩
          · rw [ occurs_of_prefix (List.cons_prefix_cons.mpr ⟨rfl, hT⟩)] at hno
            exact Bool.noConfusion hno
          · have hrl : r.length ≤ repl.length := by
              have h1 : pat0.length = (cs.take m).length + r.length := by
                rw [hqr, List.length_append]
              have h2 : (p0 :: pat0).length = pat0.length + 1 := by simp
              have := List.length_pos.mpr hr
              omega
            have hrpre : r <+: repl := prefix_of_append_of_le ht hrl
            have hkey := hL ((cs.take m).length + 1)
              (by
                have h1 : pat0.length = (cs.take m).length + r.length := by
                  rw [hqr, List.length_append]
                have := List.length_pos.mpr hr
                simp only [List.length_cons]
                omega)
              (by omega)
            have hdrop : (p0 :: pat0).drop ((cs.take m).length + 1) = r := by
              rw [List.drop_succ_cons, hqr, List.drop_left]
            rw [hdrop] at hkey
            rw [List.isPrefixOf_iff_prefix.symm] at hrpre
            rw [hkey] at hrpre
            exact Bool.noConfusion hrpre

/-- C9: the theme substitution never leaves the low-contrast literals in
its output: under the dark flag neither the pure-black-text literal
`text-black` nor the pure-white-background literal `bg-white` occurs in
the output, and under the light flag neither the pure-white-text literal
`text-white` nor the dark-slate-background literal `bg-slate-900` occurs
in the output — so the two theme modes never both leave a low-contrast
combination. -/
theorem adaptCodeForTheme_dark_eq (code : List Char) (hc : code ≠ []) :
    adaptCodeForTheme code true
      = replaceAllLit ("bg-white".data) ("bg-slate-900".data)
          (replaceAllLit ("text-black".data) ("text-slate-50".data) code) := by
  simp [adaptCodeForTheme, hc]

theorem adaptCodeForTheme_light_eq (code : List Char) (hc : code ≠ []) :
    adaptCodeForTheme code false
      = replaceAllLit ("bg-slate-900".data) ("bg-slate-100".data)
          (replaceAllLit ("text-white".data) ("text-slate-900".data) code) := by
  simp [adaptCodeForTheme, hc]

theorem theme_substitution_no_low_contrast (code : List Char) :
    occurs ("text-black".data) (adaptCodeForTheme code true) = false ∧
      occurs ("bg-white".data) (adaptCodeForTheme code true) = false ∧
      occurs ("text-white".data) (adaptCodeForTheme code false) = false ∧
      occurs ("bg-slate-900".data) (adaptCodeForTheme code false) = false := by
  by_cases hc : code = []
  · subst hc
    exact ⟨by decide, by decide, by decide, by decide⟩
  · rw [adaptCodeForTheme_dark_eq code hc, adaptCodeForTheme_light_eq code hc]
    unfold replaceAllLit
    refine ⟨?_, ?_, ?_, ?_⟩
    · exact replaceAll_preserves_no_occurs _ _ _ (by decide) (by decide) (by decide)
        (by decide) (by decide) (by decide) _ _ (Nat.le_refl _)
        (replaceAll_no_occurs _ _ (by decide) (by decide) (by decide) (by decide)
          (by decide) _ code (Nat.le_refl _))
    · exact replaceAll_no_occurs _ _ (by decide) (by decide) (by decide) (by decide)
        (by decide) _ _ (Nat.le_refl _)
    · exact replaceAll_preserves_no_occurs _ _ _ (by decide) (by decide) (by decide)
        (by decide) (by decide) (by decide) _ _ (Nat.le_refl _)
        (replaceAll_no_occurs _ _ (by decide) (by decide) (by decide) (by decide)
          (by decide) _ code (Nat.le_refl _))
    · exact replaceAll_no_occurs _ _ (by decide) (by decide) (by decide) (by decide)
        (by decide) _ _ (Nat.le_refl _)

/-! ## Hook-qualification lemmas (C5)

Facts about the hook-pass scanner `qualifyGoAux`.  The scanner's `prev`
argument is always the reverse of the original input consumed so far, so
the lookbehind and left word boundary inspect the original text exactly as
the regex engine does. -/

theorem noWordHead_word_append (l C : List Char) (hne : l ≠ [])
    (hw : ∀ c ∈ l, isWordChar c = true) : noWordHead (l ++ C) = false := by
  cases l with
  | nil => exact absurd rfl hne
  | cons d t =>
    rw [List.cons_append, noWordHead, hw d (List.mem_cons_self d t)]
    rfl

theorem noWordHead_append_left (A C : List Char) (hA : A ≠ []) :
    noWordHead (A ++ C) = noWordHead A := by
  cases A with
  | nil => exact absurd rfl hA
  | cons a t => rfl

theorem isPrefixOf_append_left (w A X : List Char) (hlen : w.length ≤ A.length) :
    w.isPrefixOf (A ++ X) = w.isPrefixOf A := by
  by_cases h : w.isPrefixOf A = true
  · rw [h]
    exact List.isPrefixOf_iff_prefix.mpr
      ((List.isPrefixOf_iff_prefix.mp h).trans (List.prefix_append A X))
  · rw [Bool.not_eq_true] at h
    rw [h, Bool.eq_false_iff]
    intro hx
    have hx' := prefix_of_append_of_le (List.isPrefixOf_iff_prefix.mp hx) hlen
    rw [← List.isPrefixOf_iff_prefix, h] at hx'
    exact Bool.noConfusion hx'

theorem eq_take_of_prefix {q l : List Char} (h : q <+: l) : q = l.take q.length := by
  obtain ⟨t, ht⟩ := h
  rw [← ht, List.take_left]

theorem qualifyGoAux_cons (h : List Char) (fuel : Nat) (prev : List Char)
    (c : Char) (cs : List Char) :
    qualifyGoAux h (fuel + 1) prev (c :: cs)
      = if bareHookAt h prev (c :: cs) then
          reactDot ++ h ++ qualifyGoAux h fuel (h.reverse ++ prev) ((c :: cs).drop h.length)
        else c :: qualifyGoAux h fuel (c :: prev) cs := rfl

theorem qualifyGoAux_copyRun (h' : List Char) :
    ∀ (B : List Char) (fuel : Nat) (prev rest : List Char),
      (B ++ rest).length ≤ fuel →
      (∀ i, i < B.length →
        bareHookAt h' ((B.take i).reverse ++ prev) (B.drop i ++ rest) = false) →
      qualifyGoAux h' fuel prev (B ++ rest)
        = B ++ qualifyGoAux h' (fuel - B.length) (B.reverse ++ prev) rest := by
  intro B
  induction B with
  | nil =>
    intro fuel prev rest hlen hnm
    simp
  | cons b B' ih =>
    intro fuel prev rest hlen hnm
    cases fuel with
    | zero =>
      exfalso
      rw [List.cons_append, List.length_cons] at hlen
      omega
    | succ fuel =>
      rw [List.cons_append, qualifyGoAux_cons]
      have h0 := hnm 0 (by simp)
      rw [List.take_zero, List.reverse_nil, List.nil_append, List.drop_zero,
        List.cons_append] at h0
      rw [if_neg (Bool.eq_false_iff.mp h0)]
      rw [ih fuel (b :: prev) rest
        (by rw [List.cons_append, List.length_cons] at hlen; omega)
        (fun i hi => by
          have := hnm (i + 1) (by simpa using Nat.succ_lt_succ hi)
          rwa [List.take_succ_cons, List.drop_succ_cons, List.reverse_cons,
            List.append_assoc, List.singleton_append] at this)]
      rw [List.length_cons, Nat.succ_sub_succ, List.reverse_cons,
        List.append_assoc, List.singleton_append, List.cons_append]

theorem qualifyGoAux_noWordHead (h' : List Char) (hne' : h' ≠ [])
    (hw' : h'.all isWordChar = true) :
    ∀ (fuel : Nat) (prev q : List Char), noWordHead q = true →
      noWordHead (qualifyGoAux h' fuel prev q) = true := by
  intro fuel prev q hq
  cases q with
  | nil => cases fuel <;> exact hq
  | cons c cs =>
    cases fuel with
    | zero => exact hq
    | succ fuel =>
      rw [qualifyGoAux_cons]
      have hbf : bareHookAt h' prev (c :: cs) = false := by
        unfold bareHookAt
        cases h' with
        | nil => exact absurd rfl hne'
        | cons u t =>
          have hu : isWordChar u = true :=
            List.all_eq_true.mp hw' u (List.mem_cons_self u t)
          have hpf : (u :: t).isPrefixOf (c :: cs) = false := by
            show (u == c && t.isPrefixOf cs) = false
            have huc : (u == c) = false := by
              rw [beq_eq_false_iff_ne]
              intro he
              subst he
              rw [noWordHead, hu] at hq
              exact Bool.noConfusion hq
            rw [huc, Bool.false_and]
          rw [hpf, Bool.false_and, Bool.false_and, Bool.false_and]
      rw [if_neg (Bool.eq_false_iff.mp hbf)]
      exact hq

/-- Per-pass completeness: on an input `p ++ h ++ q` where the hook name
`h` occurs bare (word boundaries on both sides) and unqualified (the
preceding six characters are not `React.`), the pass for `h` emits the
qualified form `React.` ++ h somewhere in its output. -/
theorem qualifyGo_emits (h : List Char) (hne : h ≠ [])
    (hw : h.all isWordChar = true)
    (hnb : ∀ k, k < h.length → 0 < k → ¬ h.drop k = h.take (h.length - k)) :
    ∀ (fuel : Nat) (p prev q : List Char),
      (p ++ h ++ q).length ≤ fuel →
      noWordHead (p.reverse ++ prev) = true →
      noWordHead q = true →
      rdot.isPrefixOf (p.reverse ++ prev) = false →
      occurs (reactDot ++ h) (qualifyGoAux h fuel prev (p ++ h ++ q)) = true := by
  intro fuel
  induction fuel with
  | zero =>
    intro p prev q hlen hb hq hrd
    exfalso
    have h1 : h.length = 0 := by
      have h2 := Nat.le_zero.mp hlen
      rw [List.length_append, List.length_append] at h2
      omega
    exact hne (List.eq_nil_of_length_eq_zero h1)
  | succ fuel ih =>
    intro p prev q hlen hb hq hrd
    cases p with
    | nil =>
      rw [List.reverse_nil, List.nil_append] at hb hrd
      rw [List.nil_append]
      cases hcase : h ++ q with
      | nil => exact absurd (List.append_eq_nil.mp hcase).1 hne
      | cons c cs =>
        rw [qualifyGoAux_cons, ← hcase]
        have hbare : bareHookAt h prev (h ++ q) = true := by
          unfold bareHookAt
          rw [List.isPrefixOf_iff_prefix.mpr (List.prefix_append h q), hb,
            List.drop_left, hq, hrd]
          rfl
        rw [if_pos hbare]
        exact occurs_of_prefix (List.prefix_append (reactDot ++ h) _)
    | cons a p' =>
      rw [List.cons_append, List.cons_append, qualifyGoAux_cons]
      by_cases hbare : bareHookAt h prev (a :: (p' ++ h ++ q)) = true
      · rw [if_pos hbare]
        have h1 := hbare
        unfold bareHookAt at h1
        rw [Bool.and_eq_true, Bool.and_eq_true, Bool.and_eq_true] at h1
        obtain ⟨⟨⟨hA, _⟩, _⟩, _⟩ := h1
        have hpre : h <+: (a :: p') ++ (h ++ q) := by
          have hA' := List.isPrefixOf_iff_prefix.mp hA
          rwa [show a :: (p' ++ h ++ q) = (a :: p') ++ (h ++ q) from by simp] at hA'
        rcases Nat.lt_trichotomy h.length (a :: p').length with hlt | heq | hgt
        · -- the match consumes part of the prefix p
          have hph : h <+: (a :: p') :=
            prefix_of_append_of_le hpre (Nat.le_of_lt hlt)
          have hsplit : (a :: p') = h ++ (a :: p').drop h.length := by
            conv_lhs => rw [← List.take_append_drop h.length (a :: p')]
            rw [← eq_take_of_prefix hph]
          have hdropeq : (a :: (p' ++ h ++ q)).drop h.length
              = (a :: p').drop h.length ++ (h ++ q) := by
            have hform : a :: (p' ++ h ++ q)
                = h ++ ((a :: p').drop h.length ++ (h ++ q)) := by
              conv_lhs =>
                rw [show a :: (p' ++ h ++ q) = (a :: p') ++ (h ++ q) from by
                  rw [List.cons_append, List.append_assoc]]
                rw [hsplit]
              rw [List.append_assoc]
            rw [hform, List.drop_left]
          rw [hdropeq]
          have hprev : ((a :: p').drop h.length).reverse ++ (h.reverse ++ prev)
              = (a :: p').reverse ++ prev := by
            conv_rhs => rw [hsplit]
            rw [List.reverse_append, List.append_assoc]
          have hlen2 : ((a :: p').drop h.length ++ h ++ q).length ≤ fuel := by
            have e1 : (a :: (p' ++ h ++ q)).length
                = (a :: p').length + h.length + q.length := by
              rw [show a :: (p' ++ h ++ q) = (a :: p') ++ (h ++ q) from by
                rw [List.cons_append, List.append_assoc]]
              rw [List.length_append, List.length_append]
              omega
            have e2 : ((a :: p').drop h.length ++ h ++ q).length
                = ((a :: p').length - h.length) + h.length + q.length := by
              rw [List.length_append, List.length_append, List.length_drop]
            have hpos : 0 < h.length := List.length_pos.mpr hne
            rw [List.cons_append, List.cons_append] at hlen
            omega
          have htail := ih ((a :: p').drop h.length) (h.reverse ++ prev) q hlen2
            (by rw [hprev]; exact hb) hq (by rw [hprev]; exact hrd)
          rw [List.append_assoc] at htail
          exact occurs_append_right (reactDot ++ h) htail
        · -- the match would end exactly where the bare occurrence begins:
          -- impossible, the boundary before the occurrence is a word char
          exfalso
          have hph : h <+: (a :: p') :=
            prefix_of_append_of_le hpre (Nat.le_of_eq heq)
          have hhp : h = a :: p' := by
            have ht := eq_take_of_prefix hph
            rw [heq, List.take_length] at ht
            exact ht
          have hfalse : noWordHead ((a :: p').reverse ++ prev) = false := by
            rw [← hhp]
            apply noWordHead_word_append
            · rw [Ne, List.reverse_eq_nil_iff]
              exact hne
            · intro c hc
              exact List.all_eq_true.mp hw c (List.mem_reverse.mp hc)
          rw [hb] at hfalse
          exact Bool.noConfusion hfalse
        · -- the match would overlap the bare occurrence: h would have a border
          exfalso
          have hple : (a :: p') <+: h :=
            List.prefix_of_prefix_length_le (List.prefix_append _ _) hpre
              (Nat.le_of_lt hgt)
          obtain ⟨t, ht⟩ := hpre
          have hsp : h = (a :: p') ++ h.drop (a :: p').length := by
            conv_lhs => rw [← List.take_append_drop (a :: p').length h]
            rw [← eq_take_of_prefix hple]
          have hdt : h.drop (a :: p').length ++ t = h ++ q := by
            have hstep : (a :: p') ++ (h.drop (a :: p').length ++ t)
                = (a :: p') ++ (h ++ q) := by
              rw [← List.append_assoc, ← hsp, ht]
            exact List.append_cancel_left hstep
          have hdd : h.drop (a :: p').length <+: h := by
            apply prefix_of_append_of_le (B := q) ⟨t, hdt⟩
            rw [List.length_drop]
            omega
          have hborder := eq_take_of_prefix hdd
          rw [List.length_drop] at hborder
          exact hnb (a :: p').length (by omega) (by simp) hborder
      · rw [if_neg hbare]
        apply occurs_cons_of_tail
        have hprev2 : p'.reverse ++ (a :: prev) = (a :: p').reverse ++ prev := by
          rw [List.reverse_cons, List.append_assoc, List.singleton_append]
        exact ih p' (a :: prev) q
          (by rw [List.cons_append, List.cons_append, List.length_cons] at hlen; omega)
          (by rw [hprev2]; exact hb) hq (by rw [hprev2]; exact hrd)

/-- Survival: the pass for a different hook `h'` keeps a bare unqualified
occurrence of `h` intact — the output decomposes around the same `h` with
the same boundary and lookbehind conditions.  Requires that neither hook
is a prefix/substring of the other and that `h'` is at least as long as
the lookbehind text. -/
theorem qualifyGo_preserves_bare (h h' : List Char)
    (hne : h ≠ []) (hne' : h' ≠ [])
    (hw : h.all isWordChar = true) (hw' : h'.all isWordChar = true)
    (hc1 : h'.isPrefixOf h = false)
    (hc2 : occurs h h' = false)
    (hlen6 : 6 ≤ h'.length) :
    ∀ (fuel : Nat) (p prev q : List Char),
      (p ++ h ++ q).length ≤ fuel →
      noWordHead (p.reverse ++ prev) = true →
      noWordHead q = true →
      rdot.isPrefixOf (p.reverse ++ prev) = false →
      ∃ p2 q2, qualifyGoAux h' fuel prev (p ++ h ++ q) = p2 ++ h ++ q2 ∧
        noWordHead (p2.reverse ++ prev) = true ∧
        noWordHead q2 = true ∧
        rdot.isPrefixOf (p2.reverse ++ prev) = false := by
  have hrdlen : rdot.length = 6 := rfl
  intro fuel
  induction fuel with
  | zero =>
    intro p prev q hlen hb hq hrd
    exfalso
    have h1 : h.length = 0 := by
      have h2 := Nat.le_zero.mp hlen
      rw [List.length_append, List.length_append] at h2
      omega
    exact hne (List.eq_nil_of_length_eq_zero h1)
  | succ fuel ih =>
    intro p prev q hlen hb hq hrd
    cases p with
    | nil =>
      rw [List.nil_append]
      have hnm : ∀ i, i < h.length →
          bareHookAt h' ((h.take i).reverse ++ prev) (h.drop i ++ q) = false := by
        intro i hi
        rcases Nat.eq_zero_or_pos i with hi0 | hipos
        · subst hi0
          rw [List.take_zero, List.reverse_nil, List.nil_append, List.drop_zero]
          have hnp : h'.isPrefixOf (h ++ q) = false := by
            rw [Bool.eq_false_iff]
            intro hx
            have hx' := List.isPrefixOf_iff_prefix.mp hx
            rcases le_or_lt h'.length h.length with hle | hlt
            · have := prefix_of_append_of_le hx' hle
              rw [← List.isPrefixOf_iff_prefix, hc1] at this
              exact Bool.noConfusion this
            · have hhp : h <+: h' :=
                List.prefix_of_prefix_length_le (List.prefix_append h q) hx'
                  (Nat.le_of_lt hlt)
              rw [ occurs_of_prefix hhp] at hc2
              exact Bool.noConfusion hc2
          unfold bareHookAt
          rw [hnp, Bool.false_and, Bool.false_and, Bool.false_and]
        · have hword : noWordHead ((h.take i).reverse ++ prev) = false := by
            apply noWordHead_word_append
            · rw [Ne, List.reverse_eq_nil_iff]
              intro htk
              have hlen3 := congrArg List.length htk
              rw [List.length_take, List.length_nil] at hlen3
              omega
            · intro c hc
              exact List.all_eq_true.mp hw c
                ((List.take_sublist i h).mem (List.mem_reverse.mp hc))
          unfold bareHookAt
          rw [hword, Bool.and_false, Bool.false_and, Bool.false_and]
      rw [qualifyGoAux_copyRun h' h (fuel + 1) prev q
        (by rw [List.nil_append] at hlen; exact hlen) hnm]
      refine ⟨[], qualifyGoAux h' (fuel + 1 - h.length) (h.reverse ++ prev) q,
        by simp, hb, ?_, hrd⟩
      exact qualifyGoAux_noWordHead h' hne' hw' _ _ q hq
    | cons a p' =>
      rw [List.cons_append, List.cons_append, qualifyGoAux_cons]
      by_cases hbare : bareHookAt h' prev (a :: (p' ++ h ++ q)) = true
      · have h1 := hbare
        unfold bareHookAt at h1
        rw [Bool.and_eq_true, Bool.and_eq_true, Bool.and_eq_true] at h1
        obtain ⟨⟨⟨hA, hB⟩, hC⟩, hD⟩ := h1
        have hpre : h' <+: (a :: p') ++ (h ++ q) := by
          have hA' := List.isPrefixOf_iff_prefix.mp hA
          rwa [show a :: (p' ++ h ++ q) = (a :: p') ++ (h ++ q) from by simp] at hA'
        rw [if_pos hbare]
        rcases Nat.lt_trichotomy h'.length (a :: p').length with hlt | heq | hgt
        · -- the h' match consumes part of the prefix p
          have hph : h' <+: (a :: p') :=
            prefix_of_append_of_le hpre (Nat.le_of_lt hlt)
          have hsplit : (a :: p') = h' ++ (a :: p').drop h'.length := by
            conv_lhs => rw [← List.take_append_drop h'.length (a :: p')]
            rw [← eq_take_of_prefix hph]
          have hdropeq : (a :: (p' ++ h ++ q)).drop h'.length
              = (a :: p').drop h'.length ++ (h ++ q) := by
            have hform : a :: (p' ++ h ++ q)
                = h' ++ ((a :: p').drop h'.length ++ (h ++ q)) := by
              conv_lhs =>
                rw [show a :: (p' ++ h ++ q) = (a :: p') ++ (h ++ q) from by simp]
                rw [hsplit]
              rw [List.append_assoc]
            rw [hform, List.drop_left]
          rw [hdropeq]
          have hprev : ((a :: p').drop h'.length).reverse ++ (h'.reverse ++ prev)
              = (a :: p').reverse ++ prev := by
            conv_rhs => rw [hsplit]
            rw [List.reverse_append, List.append_assoc]
          have hlen2 : ((a :: p').drop h'.length ++ h ++ q).length ≤ fuel := by
            have hl' := hlen
            simp only [List.cons_append, List.length_append, List.length_cons] at hl'
            have hpos : 0 < h'.length := List.length_pos.mpr hne'
            simp only [List.length_append, List.length_drop, List.length_cons]
            omega
          obtain ⟨p2', q2', heq2, hb2, hq2, hrd2⟩ :=
            ih ((a :: p').drop h'.length) (h'.reverse ++ prev) q hlen2
              (by rw [hprev]; exact hb) hq (by rw [hprev]; exact hrd)
          rw [← List.append_assoc ((a :: p').drop h'.length) h q, heq2]
          refine ⟨reactDot ++ h' ++ p2', q2', by simp, ?_, hq2, ?_⟩
          · have hAe : (reactDot ++ h' ++ p2').reverse ++ prev
                = (p2'.reverse ++ h'.reverse) ++ (rdot ++ prev) := by
              rw [List.reverse_append, List.reverse_append]
              simp [rdot]
            have hBe : p2'.reverse ++ (h'.reverse ++ prev)
                = (p2'.reverse ++ h'.reverse) ++ prev := by
              rw [List.append_assoc]
            have hnn : p2'.reverse ++ h'.reverse ≠ [] := by
              rw [Ne, List.append_eq_nil]
              intro hcon
              exact hne' (List.reverse_eq_nil_iff.mp hcon.2)
            rw [hAe, noWordHead_append_left _ _ hnn]
            rw [hBe, noWordHead_append_left _ _ hnn] at hb2
            exact hb2
          · have hAe : (reactDot ++ h' ++ p2').reverse ++ prev
                = (p2'.reverse ++ h'.reverse) ++ (rdot ++ prev) := by
              rw [List.reverse_append, List.reverse_append]
              simp [rdot]
            have hBe : p2'.reverse ++ (h'.reverse ++ prev)
                = (p2'.reverse ++ h'.reverse) ++ prev := by
              rw [List.append_assoc]
            have hlenA : rdot.length ≤ (p2'.reverse ++ h'.reverse).length := by
              rw [hrdlen, List.length_append, List.length_reverse, List.length_reverse]
              omega
            rw [hAe, isPrefixOf_append_left _ _ _ hlenA]
            rw [hBe, isPrefixOf_append_left _ _ _ hlenA] at hrd2
            exact hrd2
        · -- h' would end exactly at the bare occurrence: boundary word char
          exfalso
          have hph : h' <+: (a :: p') :=
            prefix_of_append_of_le hpre (Nat.le_of_eq heq)
          have hhp : h' = a :: p' := by
            have ht := eq_take_of_prefix hph
            rw [heq, List.take_length] at ht
            exact ht
          have hfalse : noWordHead ((a :: p').reverse ++ prev) = false := by
            rw [← hhp]
            apply noWordHead_word_append
            · rw [Ne, List.reverse_eq_nil_iff]
              exact hne'
            · intro c hc
              exact List.all_eq_true.mp hw' c (List.mem_reverse.mp hc)
          rw [hb] at hfalse
          exact Bool.noConfusion hfalse
        · -- h' would overlap the bare occurrence of h
          exfalso
          have hple : (a :: p') <+: h' :=
            List.prefix_of_prefix_length_le (List.prefix_append _ _) hpre
              (Nat.le_of_lt hgt)
          obtain ⟨t, ht⟩ := hpre
          have hsp : h' = (a :: p') ++ h'.drop (a :: p').length := by
            conv_lhs => rw [← List.take_append_drop (a :: p').length h']
            rw [← eq_take_of_prefix hple]
          have hdt : h'.drop (a :: p').length ++ t = h ++ q := by
            have hstep : (a :: p') ++ (h'.drop (a :: p').length ++ t)
                = (a :: p') ++ (h ++ q) := by
              rw [← List.append_assoc, ← hsp, ht]
            exact List.append_cancel_left hstep
          have hdne : h'.drop (a :: p').length ≠ [] := by
            intro hcon
            have hlc := congrArg List.length hcon
            rw [List.length_drop, List.length_nil] at hlc
            omega
          rcases Nat.lt_trichotomy (h'.drop (a :: p').length).length h.length with
            hdlt | hdeq | hdgt
          · -- boundary after the h' span is a word character inside h
            have hdrop2 : (a :: (p' ++ h ++ q)).drop h'.length
                = h.drop (h'.drop (a :: p').length).length ++ q := by
              have hlsum : h'.length
                  = (a :: p').length + (h'.drop (a :: p').length).length := by
                rw [List.length_drop]
                omega
              have hsform : a :: (p' ++ h ++ q) = (a :: p') ++ (h ++ q) := by simp
              rw [hsform, hlsum, ← List.drop_drop, List.drop_left]
              have hh : h = h.take (h'.drop (a :: p').length).length
                  ++ h.drop (h'.drop (a :: p').length).length := by
                rw [List.take_append_drop]
              conv_lhs => rw [hh]
              rw [List.append_assoc]
              rw [List.drop_left']
              rw [List.length_take]
              omega
            have hCfalse : noWordHead ((a :: (p' ++ h ++ q)).drop h'.length) = false := by
              rw [hdrop2]
              apply noWordHead_word_append
              · intro hcon
                have hlc := congrArg List.length hcon
                rw [List.length_drop, List.length_nil] at hlc
                omega
              · intro c hc
                exact List.all_eq_true.mp hw c
                  ((List.drop_sublist _ h).mem hc)
            rw [hC] at hCfalse
            exact Bool.noConfusion hCfalse
          · -- the h' span ends exactly at the end of h: h is a suffix of h'
            have hdh : h'.drop (a :: p').length = h := by
              rcases List.append_inj hdt hdeq with ⟨hd1, _⟩
              exact hd1
            rw [occurs_of_eq_append (p := a :: p') (q := [])
              (by rw [List.append_nil, ← hdh]; exact hsp)] at hc2
            exact Bool.noConfusion hc2
          · -- h occurs strictly inside h'
            have hhd : h <+: h'.drop (a :: p').length := by
              apply prefix_of_append_of_le (B := t)
              · rw [hdt]
                exact List.prefix_append h q
              · omega
            obtain ⟨d', hd'⟩ := hhd
            rw [occurs_of_eq_append (p := a :: p') (q := d')
              (by rw [hsp, ← hd', List.append_assoc])] at hc2
            exact Bool.noConfusion hc2
      · rw [if_neg hbare]
        have hprev2 : p'.reverse ++ (a :: prev) = (a :: p').reverse ++ prev := by
          rw [List.reverse_cons, List.append_assoc, List.singleton_append]
        obtain ⟨p2', q2', heq2, hb2, hq2, hrd2⟩ := ih p' (a :: prev) q
          (by rw [List.cons_append, List.cons_append, List.length_cons] at hlen; omega)
          (by rw [hprev2]; exact hb) hq (by rw [hprev2]; exact hrd)
        rw [heq2]
        refine ⟨a :: p2', q2', by simp, ?_, hq2, ?_⟩
        · rwa [List.reverse_cons, List.append_assoc, List.singleton_append]
        · rwa [List.reverse_cons, List.append_assoc, List.singleton_append]

theorem noWordHead_reactDot_drop (n : Nat) (h1 : 1 ≤ n) (h4 : n ≤ 4)
    (X : List Char) : noWordHead (reactDot.drop n ++ X) = false := by
  interval_cases n <;> rfl

theorem isPrefixOf_cons_head_ne (a b : Char) (as bs : List Char)
    (hab : (a == b) = false) : (a :: as).isPrefixOf (b :: bs) = false := by
  show (a == b && as.isPrefixOf bs) = false
  rw [hab, Bool.false_and]

/-- Stability: the pass for `h'` cannot destroy an already-qualified
occurrence `React.` ++ h.  The hook names all start with `u`, consist of
word characters only and never end in `React`, so no `h'` match can start
inside the qualified block, and a match ending inside it is blocked by the
lookbehind (at the hook) or by a word-character boundary. -/
theorem qualifyGo_preserves_qualified (h h' : List Char)
    (hne' : h' ≠ [])
    (hw : h.all isWordChar = true) (hw' : h'.all isWordChar = true)
    (hu' : h'.take 1 = ['u'])
    (hns : ("React".data).isSuffixOf h' = false) :
    ∀ (fuel : Nat) (A prev B : List Char),
      (A ++ (reactDot ++ h) ++ B).length ≤ fuel →
      occurs (reactDot ++ h)
        (qualifyGoAux h' fuel prev (A ++ (reactDot ++ h) ++ B)) = true := by
  obtain ⟨t0, ht0⟩ : ∃ t0, h' = 'u' :: t0 := by
    cases h' with
    | nil => exact absurd rfl hne'
    | cons u t =>
      refine ⟨t, ?_⟩
      have h1 : [u] = ['u'] := hu'
      rw [List.cons.injEq] at h1
      rw [h1.1]
  have h6 : reactDot.length = 6 := rfl
  intro fuel
  induction fuel with
  | zero =>
    intro A prev B hlen
    exfalso
    rw [Nat.le_zero] at hlen
    simp only [List.length_append] at hlen
    rw [h6] at hlen
    omega
  | succ fuel ih =>
    intro A prev B hlen
    cases A with
    | nil =>
      rw [List.nil_append, List.append_assoc]
      rw [List.nil_append] at hlen
      have hlen1 : (reactDot ++ (h ++ B)).length ≤ fuel + 1 := by
        rw [← List.append_assoc]
        exact hlen
      have hnm6 : ∀ i, i < reactDot.length →
          bareHookAt h' ((reactDot.take i).reverse ++ prev)
            (reactDot.drop i ++ (h ++ B)) = false := by
        intro i hi
        rw [h6] at hi
        interval_cases i
        · unfold bareHookAt
          have hpf : h'.isPrefixOf (reactDot.drop 0 ++ (h ++ B)) = false := by
            rw [ht0, show reactDot.drop 0 ++ (h ++ B)
              = 'R' :: (['e', 'a', 'c', 't', '.'] ++ (h ++ B)) from rfl]
            exact isPrefixOf_cons_head_ne _ _ _ _ (by decide)
          rw [hpf, Bool.false_and, Bool.false_and, Bool.false_and]
        · unfold bareHookAt
          rw [show noWordHead ((reactDot.take 1).reverse ++ prev) = false from rfl,
            Bool.and_false, Bool.false_and, Bool.false_and]
        · unfold bareHookAt
          rw [show noWordHead ((reactDot.take 2).reverse ++ prev) = false from rfl,
            Bool.and_false, Bool.false_and, Bool.false_and]
        · unfold bareHookAt
          rw [show noWordHead ((reactDot.take 3).reverse ++ prev) = false from rfl,
            Bool.and_false, Bool.false_and, Bool.false_and]
        · unfold bareHookAt
          rw [show noWordHead ((reactDot.take 4).reverse ++ prev) = false from rfl,
            Bool.and_false, Bool.false_and, Bool.false_and]
        · unfold bareHookAt
          rw [show noWordHead ((reactDot.take 5).reverse ++ prev) = false from rfl,
            Bool.and_false, Bool.false_and, Bool.false_and]
      rw [qualifyGoAux_copyRun h' reactDot (fuel + 1) prev (h ++ B) hlen1 hnm6]
      have hnmh : ∀ i, i < h.length →
          bareHookAt h' ((h.take i).reverse ++ (reactDot.reverse ++ prev))
            (h.drop i ++ B) = false := by
        intro i hi
        rcases Nat.eq_zero_or_pos i with hi0 | hipos
        · subst hi0
          rw [List.take_zero, List.reverse_nil, List.nil_append, List.drop_zero]
          unfold bareHookAt
          have hrt : rdot.isPrefixOf (reactDot.reverse ++ prev) = true :=
            List.isPrefixOf_iff_prefix.mpr (List.prefix_append rdot prev)
          rw [hrt, Bool.not_true, Bool.and_false]
        · have hword : noWordHead ((h.take i).reverse
              ++ (reactDot.reverse ++ prev)) = false := by
            apply noWordHead_word_append
            · rw [Ne, List.reverse_eq_nil_iff]
              intro htk
              have hlen3 := congrArg List.length htk
              rw [List.length_take, List.length_nil] at hlen3
              omega
            · intro c hc
              exact List.all_eq_true.mp hw c
                ((List.take_sublist i h).mem (List.mem_reverse.mp hc))
          unfold bareHookAt
          rw [hword, Bool.and_false, Bool.false_and, Bool.false_and]
      have hlen2 : (h ++ B).length ≤ fuel + 1 - reactDot.length := by
        rw [List.length_append] at hlen1
        rw [h6] at hlen1 ⊢
        omega
      rw [qualifyGoAux_copyRun h' h (fuel + 1 - reactDot.length)
        (reactDot.reverse ++ prev) B hlen2 hnmh]
      rw [← List.append_assoc]
      exact occurs_of_prefix (List.prefix_append (reactDot ++ h) _)
    | cons a A' =>
      rw [List.cons_append, List.cons_append, qualifyGoAux_cons]
      by_cases hbare : bareHookAt h' prev (a :: (A' ++ (reactDot ++ h) ++ B)) = true
      · rw [if_pos hbare]
        have h1 := hbare
        unfold bareHookAt at h1
        rw [Bool.and_eq_true, Bool.and_eq_true, Bool.and_eq_true] at h1
        obtain ⟨⟨⟨hA, hB⟩, hC⟩, hD⟩ := h1
        have hpre : h' <+: (a :: A') ++ ((reactDot ++ h) ++ B) := by
          have hA' := List.isPrefixOf_iff_prefix.mp hA
          rwa [show a :: (A' ++ (reactDot ++ h) ++ B)
            = (a :: A') ++ ((reactDot ++ h) ++ B) from by simp] at hA'
        rcases le_or_lt h'.length (a :: A').length with hle | hgt
        · -- the h' match is consumed inside the prefix A
          have hph : h' <+: (a :: A') := prefix_of_append_of_le hpre hle
          have hsplit : (a :: A') = h' ++ (a :: A').drop h'.length := by
            conv_lhs => rw [← List.take_append_drop h'.length (a :: A')]
            rw [← eq_take_of_prefix hph]
          have hdropeq : (a :: (A' ++ (reactDot ++ h) ++ B)).drop h'.length
              = (a :: A').drop h'.length ++ ((reactDot ++ h) ++ B) := by
            have hform : a :: (A' ++ (reactDot ++ h) ++ B)
                = h' ++ ((a :: A').drop h'.length ++ ((reactDot ++ h) ++ B)) := by
              conv_lhs =>
                rw [show a :: (A' ++ (reactDot ++ h) ++ B)
                  = (a :: A') ++ ((reactDot ++ h) ++ B) from by simp]
                rw [hsplit]
              rw [List.append_assoc]
            rw [hform, List.drop_left]
          rw [hdropeq]
          have hlen2 : ((a :: A').drop h'.length
              ++ (reactDot ++ h) ++ B).length ≤ fuel := by
            have hl' := hlen
            simp only [List.cons_append, List.length_append, List.length_cons] at hl'
            have hpos : 0 < h'.length := List.length_pos.mpr hne'
            simp only [List.length_append, List.length_drop, List.length_cons]
            omega
          rw [← List.append_assoc ((a :: A').drop h'.length) (reactDot ++ h) B]
          exact occurs_append_right (reactDot ++ h')
            (ih ((a :: A').drop h'.length) (h'.reverse ++ prev) B hlen2)
        · -- the h' match would spill into the qualified block: impossible
          exfalso
          have hple : (a :: A') <+: h' :=
            List.prefix_of_prefix_length_le (List.prefix_append _ _) hpre
              (Nat.le_of_lt hgt)
          obtain ⟨t, ht⟩ := hpre
          have hsp : h' = (a :: A') ++ h'.drop (a :: A').length := by
            conv_lhs => rw [← List.take_append_drop (a :: A').length h']
            rw [← eq_take_of_prefix hple]
          have hdt : h'.drop (a :: A').length ++ t = (reactDot ++ h) ++ B := by
            have hstep : (a :: A') ++ (h'.drop (a :: A').length ++ t)
                = (a :: A') ++ ((reactDot ++ h) ++ B) := by
              rw [← List.append_assoc, ← hsp, ht]
            exact List.append_cancel_left hstep
          have hdpre : h'.drop (a :: A').length <+: (reactDot ++ h) ++ B := ⟨t, hdt⟩
          have hdlen : (h'.drop (a :: A').length).length
              = h'.length - (a :: A').length := List.length_drop _ _
          have hdpos : 0 < (h'.drop (a :: A').length).length := by
            rw [hdlen]
            omega
          rcases Nat.lt_trichotomy (h'.drop (a :: A').length).length 5 with
            hd5 | hd5 | hd5
          · -- the boundary after the h' span is a word character of React.
            have hdrop2 : (a :: (A' ++ (reactDot ++ h) ++ B)).drop h'.length
                = reactDot.drop (h'.drop (a :: A').length).length ++ (h ++ B) := by
              have hlsum : h'.length
                  = (a :: A').length + (h'.drop (a :: A').length).length := by
                rw [hdlen]
                omega
              have hsform : a :: (A' ++ (reactDot ++ h) ++ B)
                  = (a :: A') ++ ((reactDot ++ h) ++ B) := by simp
              rw [hsform, hlsum, ← List.drop_drop, List.drop_left,
                List.append_assoc, List.drop_append_eq_append_drop,
                Nat.sub_eq_zero_of_le (by rw [h6]; omega), List.drop_zero]
            have hCfalse : noWordHead
                ((a :: (A' ++ (reactDot ++ h) ++ B)).drop h'.length) = false := by
              rw [hdrop2]
              exact noWordHead_reactDot_drop _ hdpos (by omega) (h ++ B)
            rw [hC] at hCfalse
            exact Bool.noConfusion hCfalse
          · -- the h' span ends right after React: h' would end in React
            have hdval : h'.drop (a :: A').length = "React".data := by
              have hdt5 : h'.drop (a :: A').length
                  = ((reactDot ++ h) ++ B).take 5 := by
                rw [← hd5]
                exact eq_take_of_prefix hdpre
              rw [hdt5, List.append_assoc, List.take_append_eq_append_take,
                show (5 : Nat) - reactDot.length = 0 from rfl, List.take_zero,
                List.append_nil]
              rfl
            have hsuf : ("React".data).isSuffixOf h' = true := by
              rw [List.isSuffixOf_iff_suffix]
              exact ⟨a :: A', by rw [← hdval, ← hsp]⟩
            rw [hsuf] at hns
            exact Bool.noConfusion hns
          · -- the h' span covers React.: h' would contain a dot
            have hdeq : h'.drop (a :: A').length
                = ((reactDot ++ h) ++ B).take (h'.drop (a :: A').length).length :=
              eq_take_of_prefix hdpre
            have hd6 : (h'.drop (a :: A').length).take 6 = reactDot := by
              rw [hdeq, List.take_take, min_eq_left (by omega),
                List.append_assoc, List.take_append_eq_append_take,
                show (6 : Nat) - reactDot.length = 0 from rfl, List.take_zero,
                List.append_nil]
              rfl
            have hdot : '.' ∈ h' := by
              have hmem : '.' ∈ (h'.drop (a :: A').length).take 6 := by
                rw [hd6]
                decide
              exact (List.drop_sublist _ h').mem ((List.take_sublist _ _).mem hmem)
            exact absurd (List.all_eq_true.mp hw' '.' hdot) (by decide)
      · rw [if_neg hbare]
        apply occurs_cons_of_tail
        exact ih A' (a :: prev) B
          (by rw [List.cons_append, List.cons_append, List.length_cons] at hlen
              omega)

/-- One full pass keeps a bare unqualified hook occurrence intact, in
decomposed form (specialisation of the scanner lemma to `qualifyOne`). -/
theorem qualifyOne_preserves_bare (h h' : List Char)
    (hne : h ≠ []) (hne' : h' ≠ [])
    (hw : h.all isWordChar = true) (hw' : h'.all isWordChar = true)
    (hc1 : h'.isPrefixOf h = false) (hc2 : occurs h h' = false)
    (hlen6 : 6 ≤ h'.length)
    (p q : List Char)
    (hb : noWordHead p.reverse = true) (hq : noWordHead q = true)
    (hrd : rdot.isPrefixOf p.reverse = false) :
    ∃ p2 q2, qualifyOne h' (p ++ h ++ q) = p2 ++ h ++ q2 ∧
      noWordHead p2.reverse = true ∧ noWordHead q2 = true ∧
      rdot.isPrefixOf p2.reverse = false := by
  obtain ⟨p2, q2, he, hb2, hq2, hrd2⟩ :=
    qualifyGo_preserves_bare h h' hne hne' hw hw' hc1 hc2 hlen6
      (p ++ h ++ q).length p [] q (le_refl _)
      (by rw [List.append_nil]; exact hb) hq
      (by rw [List.append_nil]; exact hrd)
  rw [List.append_nil] at hb2 hrd2
  exact ⟨p2, q2, he, hb2, hq2, hrd2⟩

/-- A sequence of passes for other hooks keeps a bare unqualified hook
occurrence intact. -/
theorem qualifyList_preserves_bare (h : List Char)
    (hne : h ≠ []) (hw : h.all isWordChar = true) :
    ∀ (hs : List (List Char)),
      (∀ h2 ∈ hs, h2 ≠ [] ∧ h2.all isWordChar = true ∧
        h2.isPrefixOf h = false ∧ occurs h h2 = false ∧ 6 ≤ h2.length) →
      ∀ p q, noWordHead p.reverse = true → noWordHead q = true →
        rdot.isPrefixOf p.reverse = false →
        ∃ p2 q2,
          List.foldl (fun acc h2 => qualifyOne h2 acc) (p ++ h ++ q) hs
            = p2 ++ h ++ q2 ∧
          noWordHead p2.reverse = true ∧ noWordHead q2 = true ∧
          rdot.isPrefixOf p2.reverse = false := by
  intro hs
  induction hs with
  | nil =>
    intro _ p q hb hq hrd
    exact ⟨p, q, rfl, hb, hq, hrd⟩
  | cons h1 hs ih =>
    intro hcond p q hb hq hrd
    obtain ⟨hne1, hw1, hp1, ho1, hl1⟩ := hcond h1 (List.mem_cons_self h1 hs)
    obtain ⟨p2, q2, he, hb2, hq2, hrd2⟩ :=
      qualifyOne_preserves_bare h h1 hne hne1 hw hw1 hp1 ho1 hl1 p q hb hq hrd
    simp only [List.foldl_cons]
    rw [he]
    exact ih (fun h2 hm => hcond h2 (List.mem_cons_of_mem h1 hm)) p2 q2 hb2 hq2 hrd2

/-- One full pass keeps an already-qualified occurrence. -/
theorem qualifyOne_preserves_qualified (h h' : List Char)
    (hne' : h' ≠ [])
    (hw : h.all isWordChar = true) (hw' : h'.all isWordChar = true)
    (hu' : h'.take 1 = ['u'])
    (hns : ("React".data).isSuffixOf h' = false)
    (s : List Char) (hocc : occurs (reactDot ++ h) s = true) :
    occurs (reactDot ++ h) (qualifyOne h' s) = true := by
  obtain ⟨A, B, hAB⟩ := occurs_exists hocc
  subst hAB
  exact qualifyGo_preserves_qualified h h' hne' hw hw' hu' hns
    (A ++ (reactDot ++ h) ++ B).length A [] B (le_refl _)

/-- A sequence of passes keeps an already-qualified occurrence. -/
theorem qualifyList_preserves_qualified (h : List Char)
    (hw : h.all isWordChar = true) :
    ∀ (hs : List (List Char)),
      (∀ h2 ∈ hs, h2 ≠ [] ∧ h2.all isWordChar = true ∧ h2.take 1 = ['u'] ∧
        ("React".data).isSuffixOf h2 = false) →
      ∀ s, occurs (reactDot ++ h) s = true →
        occurs (reactDot ++ h)
          (List.foldl (fun acc h2 => qualifyOne h2 acc) s hs) = true := by
  intro hs
  induction hs with
  | nil =>
    intro _ s hocc
    exact hocc
  | cons h1 hs ih =>
    intro hcond s hocc
    obtain ⟨hne1, hw1, hu1, hn1⟩ := hcond h1 (List.mem_cons_self h1 hs)
    simp only [List.foldl_cons]
    exact ih (fun h2 hm => hcond h2 (List.mem_cons_of_mem h1 hm)) _
      (qualifyOne_preserves_qualified h h1 hne1 hw hw1 hu1 hn1 s hocc)

/-- Chaining the three scanner lemmas along the split of the hook list
around the hook in question. -/
theorem qualifyHooks_emits_of_split (pre post : List (List Char)) (h : List Char)
    (hsplit : hookNames = pre ++ h :: post)
    (hne : h ≠ []) (hw : h.all isWordChar = true)
    (hnb : ∀ k, k < h.length → 0 < k → ¬ h.drop k = h.take (h.length - k))
    (hpre2 : ∀ h2 ∈ pre, h2 ≠ [] ∧ h2.all isWordChar = true ∧
      h2.isPrefixOf h = false ∧ occurs h h2 = false ∧ 6 ≤ h2.length)
    (hpost : ∀ h2 ∈ post, h2 ≠ [] ∧ h2.all isWordChar = true ∧
      h2.take 1 = ['u'] ∧ ("React".data).isSuffixOf h2 = false)
    (p q : List Char)
    (hb : noWordHead p.reverse = true) (hq : noWordHead q = true)
    (hrd : rdot.isPrefixOf p.reverse = false) :
    occurs (reactDot ++ h) (qualifyHooks (p ++ h ++ q)) = true := by
  unfold qualifyHooks
  rw [hsplit, List.foldl_append]
  obtain ⟨p2, q2, he, hb2, hq2, hrd2⟩ :=
    qualifyList_preserves_bare h hne hw pre hpre2 p q hb hq hrd
  rw [he]
  simp only [List.foldl_cons]
  apply qualifyList_preserves_qualified h hw post hpost
  exact qualifyGo_emits h hne hw hnb (p2 ++ h ++ q2).length p2 [] q2 (le_refl _)
    (by rw [List.append_nil]; exact hb2) hq2
    (by rw [List.append_nil]; exact hrd2)

/-- C5: the hook-qualification stage of `normalizeGeneratedCode` (the seven
sequential global replaces of App.tsx lines 62-68, modelled by
`qualifyHooks`) rewrites bare references to the hook names useState,
useEffect, useCallback, useMemo, useRef, useContext and useReducer into the
qualified form `React.<hook>`: for every input decomposing as
`p ++ hook ++ q` with word boundaries on both sides of the hook and without
the `React.` lookbehind text before it, the output contains the qualified
occurrence `React.` ++ hook.  Moreover every hook name, and `React` itself,
is a key of the `reactLiveScope` object supplied to the sandbox, so each
qualified name resolves against the execution scope. -/
theorem hook_qualification_rewrites_bare_refs :
    (∀ h p q, h ∈ hookNames →
      noWordHead p.reverse = true → noWordHead q = true →
      rdot.isPrefixOf p.reverse = false →
      occurs (reactDot ++ h) (qualifyHooks (p ++ h ++ q)) = true)
    ∧ (∀ hs ∈ hookNameStrings, hs ∈ reactLiveScopeKeys)
    ∧ "React" ∈ reactLiveScopeKeys := by
  refine ⟨?_, by decide, by decide⟩
  intro h p q hmem hb hq hrd
  have h0 : h ∈ [("useState".data), ("useEffect".data), ("useCallback".data),
    ("useMemo".data), ("useRef".data), ("useContext".data),
    ("useReducer".data)] := hmem
  simp only [List.mem_cons, List.not_mem_nil, or_false] at h0
  rcases h0 with h1 | h1 | h1 | h1 | h1 | h1 | h1 <;> subst h1
  · exact qualifyHooks_emits_of_split []
      [("useEffect".data), ("useCallback".data), ("useMemo".data),
        ("useRef".data), ("useContext".data), ("useReducer".data)]
      ("useState".data) rfl (by decide) (by decide) (by decide) (by decide)
      (by decide) p q hb hq hrd
  · exact qualifyHooks_emits_of_split [("useState".data)]
      [("useCallback".data), ("useMemo".data), ("useRef".data),
        ("useContext".data), ("useReducer".data)]
      ("useEffect".data) rfl (by decide) (by decide) (by decide) (by decide)
      (by decide) p q hb hq hrd
  · exact qualifyHooks_emits_of_split [("useState".data), ("useEffect".data)]
      [("useMemo".data), ("useRef".data), ("useContext".data),
        ("useReducer".data)]
      ("useCallback".data) rfl (by decide) (by decide) (by decide) (by decide)
      (by decide) p q hb hq hrd
  · exact qualifyHooks_emits_of_split
      [("useState".data), ("useEffect".data), ("useCallback".data)]
      [("useRef".data), ("useContext".data), ("useReducer".data)]
      ("useMemo".data) rfl (by decide) (by decide) (by decide) (by decide)
      (by decide) p q hb hq hrd
  · exact qualifyHooks_emits_of_split
      [("useState".data), ("useEffect".data), ("useCallback".data),
        ("useMemo".data)]
      [("useContext".data), ("useReducer".data)]
      ("useRef".data) rfl (by decide) (by decide) (by decide) (by decide)
      (by decide) p q hb hq hrd
  · exact qualifyHooks_emits_of_split
      [("useState".data), ("useEffect".data), ("useCallback".data),
        ("useMemo".data), ("useRef".data)]
      [("useReducer".data)]
      ("useContext".data) rfl (by decide) (by decide) (by decide) (by decide)
      (by decide) p q hb hq hrd
  · exact qualifyHooks_emits_of_split
      [("useState".data), ("useEffect".data), ("useCallback".data),
        ("useMemo".data), ("useRef".data), ("useContext".data)]
      []
      ("useReducer".data) rfl (by decide) (by decide) (by decide) (by decide)
      (by decide) p q hb hq hrd

/-- Concrete instance: the bare `useState` in `const n = useState(0);` is
rewritten, so the output of the hook passes contains `React.useState`, and
`useState` is a scope key. -/
theorem hook_qualification_witness :
    occurs (reactDot ++ ("useState".data))
      (qualifyHooks (("const n = ".data) ++ ("useState".data)
        ++ ("(0);".data))) = true
    ∧ "useState" ∈ reactLiveScopeKeys :=
  ⟨hook_qualification_rewrites_bare_refs.1 ("useState".data)
      ("const n = ".data) ("(0);".data) (by decide) (by decide) (by decide)
      (by decide),
    by decide⟩

end UICopilot
